import Mathlib

/-!
Verification of the `rtemka/agg` news-aggregation repository.

Shallow embeddings, per package of the source tree:

* `Gateway` — `gateway/domain` (the comment-tree builder `ToTree` / `dig`).
  The Go code mutates a `[]Comment` slice through pointers stored in a
  `map[int64][]*Comment`; we model the slice as a `List Comment` indexed by
  position, pointers as indices, and the map as a function
  `Int → List Nat`.  The unbounded recursion of `dig` is modelled with an
  explicit fuel argument: `none` means the recursion depth exceeded the
  fuel, so "diverges" = `none` for every fuel.

* `NewsStorage` — `newsservice/pkg/storage` and `.../storage/postgres`
  (the SQL statement builder and the pubDate decoding loop; `time.Parse`
  is an external library call and is taken as a function parameter).

* `CommentsSvc` — `comments/pkg/api` and `comments/pkg/sqlite`
  (the comment-create handler dispatch and the insert-statement choice).

* `NewsApi` — `newsservice/pkg/api` (the by-id handler dispatch and the
  query-parameter parsing; `strconv` / `time.Parse` are parameters).
-/

namespace Gateway

/-- Model of `domain.Comment` (gateway/domain): id, author, text,
posted_at, reply_id and the nested replies. -/
structure Comment where
  id       : Int
  author   : String
  text     : String
  postedAt : Int
  replyId  : Int
  replies  : List Comment
  deriving Repr

/-- The zero `Comment`, used as the out-of-range default for list indexing
(the Go code never indexes out of range). -/
def defaultComment : Comment := ⟨0, "", "", 0, 0, []⟩

/-- Pointwise update of the children map (`m[k] = v` in Go). -/
def updateMap (m : Int → List Nat) (k : Int) (v : List Nat) : Int → List Nat :=
  fun k' => if k' = k then v else m k'

/-- First loop of `ToTree`: for non-roots, append the comment's index to
`m[reply_id]`.  For roots the Go code only ensures the map key exists
(`m[id] = nil` when absent), which is indistinguishable from absence for
every later read (`len`, `range`, `append`), so the model skips it; the
`tops` counter only sizes an allocation and is dropped for the same
reason. -/
def buildMap : List Comment → Nat → (Int → List Nat) → (Int → List Nat)
  | [], _, m => m
  | c :: rest, i, m =>
    if c.replyId = 0 then buildMap rest (i + 1) m
    else buildMap rest (i + 1) (updateMap m c.replyId (m c.replyId ++ [i]))

/-- `dig` from gateway/domain: recursively inline the child subtrees of the
comment at index `j`, mutating the slice in place; the caller then copies
the mutated value.  `fuel` bounds the recursion depth (the Go code has no
bound; on inputs where it recurses forever this model yields `none` for
every fuel). -/
def dig (m : Int → List Nat) : Nat → Nat → List Comment → Option (List Comment)
  | 0, _, _ => none
  | f + 1, j, A =>
    if m (A.getD j defaultComment).id = [] then some A
    else
      (m (A.getD j defaultComment).id).foldlM (fun acc v =>
        (dig m f v acc).map (fun A2 =>
          A2.set j { A2.getD j defaultComment with
                     replies := (A2.getD j defaultComment).replies ++ [A2.getD v defaultComment] })) A

/-- One iteration of the inner `for _, v := range m[...]` loop shared by
`dig` and the second loop of `ToTree`: dig into child `v`, then append a
copy of its (mutated) value to the replies of the comment at index `j`. -/
def digChildren (m : Int → List Nat) (f : Nat) (vs : List Nat) (j : Nat)
    (A : List Comment) : Option (List Comment) :=
  vs.foldlM (fun acc v =>
    (dig m f v acc).map (fun A2 =>
      A2.set j { A2.getD j defaultComment with
                 replies := (A2.getD j defaultComment).replies ++ [A2.getD v defaultComment] })) A

theorem dig_succ (m : Int → List Nat) (f j : Nat) (A : List Comment) :
    dig m (f + 1) j A =
      if m (A.getD j defaultComment).id = [] then some A
      else digChildren m f (m (A.getD j defaultComment).id) j A := rfl

/-- Second loop of `ToTree` over the indices of the slice, threading the
children map (cleared entry by entry) and the mutated slice. -/
def toTreeLoop (m : Int → List Nat) (f : Nat) :
    List Nat → List Comment → Option ((Int → List Nat) × List Comment)
  | [], A => some (m, A)
  | i :: rest, A =>
    if m (A.getD i defaultComment).id = [] then toTreeLoop m f rest A
    else
      match digChildren m f (m (A.getD i defaultComment).id) i A with
      | none => none
      | some A2 => toTreeLoop (updateMap m (A.getD i defaultComment).id []) f rest A2

/-- `ToTree` from gateway/domain, with explicit recursion fuel: build the
children map, run the filling loop, then emit the (mutated) comments whose
`reply_id` is `0`, in input order. -/
def ToTree (f : Nat) (comments : List Comment) : Option (List Comment) :=
  let m := buildMap comments 0 (fun _ => [])
  match toTreeLoop m f (List.range comments.length) comments with
  | none => none
  | some (_, A) => some (A.filter (fun c => c.replyId == 0))

/-- Preorder list of the ids of all nodes of a forest (observer used to
state uniqueness of elements across the output forest). -/
def forestIds : List Comment → List Int
  | [] => []
  | c :: cs => c.id :: (forestIds c.replies ++ forestIds cs)
termination_by l => sizeOf l
decreasing_by all_goals (cases c; simp <;> omega)

/-- Ids of all nodes of a single tree. -/
def treeIds (c : Comment) : List Int := c.id :: forestIds c.replies

/-- Preorder list of all nodes of a forest. -/
def nodesOfForest : List Comment → List Comment
  | [] => []
  | c :: cs => c :: (nodesOfForest c.replies ++ nodesOfForest cs)
termination_by l => sizeOf l
decreasing_by all_goals (cases c; simp <;> omega)

/-- Forget the replies of a comment (compare the scalar fields only). -/
def stripReplies (c : Comment) : Comment := { c with replies := [] }

end Gateway

namespace NewsStorage

/-- `storage.PageSize`. -/
def PageSize : Int := 10

/-- `storage.Sort` (the name `Sort` is reserved in Lean). -/
inductive SortBy where
  | empty
  | date
  | title
  | rank
  deriving DecidableEq, Repr

/-- `Sort.String()`: the Go method indexes `[]string{"", "pub_date",
"title", "rank"}` with the sort value. -/
def SortBy.str : SortBy → String
  | .empty => ""
  | .date => "pub_date"
  | .title => "title"
  | .rank => "rank"

/-- `storage.TimeFilter`: a Unix timestamp plus a comparison operator. -/
structure TimeFilter where
  value    : Int
  operator : String
  deriving DecidableEq, Repr

/-- The zero `TimeFilter` (Go zero value). -/
def TimeFilter.zero : TimeFilter := ⟨0, ""⟩

/-- `storage.Filter`. -/
structure Filter where
  exclude     : List String
  sortBy      : SortBy
  page        : Int
  date        : TimeFilter
  endDate     : TimeFilter
  titleSearch : List String
  deriving DecidableEq, Repr

/-- The zero `Filter` (Go zero value). -/
def Filter.zero : Filter := ⟨[], .empty, 0, .zero, .zero, []⟩

/-- A positional SQL argument (the Go code binds ints and strings). -/
inductive SqlArg where
  | i (n : Int)
  | s (v : String)
  deriving DecidableEq, Repr

/-- `postgres.statement`: accumulated SQL text and positional arguments. -/
structure Statement where
  sql  : String
  args : List SqlArg
  deriving DecidableEq, Repr

/-- A single-quote character, written via its code point. -/
def sq : String := String.singleton (Char.ofNat 39)

/-- `postgres.searchStr`: join the search terms with `&`; if the exclude
list is non-empty write `&!`; then join the exclude terms with `&!`. -/
def searchStr (f : Filter) : String :=
  String.intercalate "&" f.titleSearch
    ++ (if f.exclude ≠ [] then "&!" else "")
    ++ String.intercalate "&!" f.exclude

/-- Two's-complement wraparound of a 64-bit machine `int`, used wherever
the Go source computes arithmetic on `int` that can overflow. -/
def wrap64 (z : Int) : Int := (z + 2 ^ 63) % 2 ^ 64 - 2 ^ 63

/-- `postgres.calcLimitOffset`: the subtraction and multiplication are Go
`int` (64-bit wrapping) operations. -/
def calcLimitOffset (pageNum pageSize : Int) : Int × Int :=
  if pageNum < 1 then (0, 0)
  else (pageSize, wrap64 (wrap64 (pageNum - 1) * pageSize))

/-- `postgres.(*statement).addLimitOffsetClause`: append ` LIMIT $n` when
the computed limit is positive and ` OFFSET $n` when the computed offset
is positive, binding each as the next positional argument. -/
def addLimitOffsetClause (f : Filter) (stmt : Statement) : Statement :=
  let lo := calcLimitOffset f.page PageSize
  let stmt1 :=
    if lo.1 > 0 then
      { sql := stmt.sql ++ " LIMIT $" ++ toString (stmt.args.length + 1),
        args := stmt.args ++ [SqlArg.i lo.1] }
    else stmt
  if lo.2 > 0 then
    { sql := stmt1.sql ++ " OFFSET $" ++ toString (stmt1.args.length + 1),
      args := stmt1.args ++ [SqlArg.i lo.2] }
  else stmt1

/-- `postgres.(*statement).addOrderBy`. -/
def addOrderBy (f : Filter) (stmt : Statement) : Statement :=
  if f.sortBy = SortBy.empty then
    { stmt with sql := stmt.sql ++ " ORDER BY " ++ SortBy.date.str ++ " DESC" }
  else if f.sortBy = SortBy.rank ∧ f.titleSearch ≠ [] then
    { sql := stmt.sql ++ " ORDER BY ts_rank(title_search, to_tsquery(" ++ sq ++ "russian" ++ sq
               ++ ", $" ++ toString (stmt.args.length + 1) ++ ")) DESC",
      args := stmt.args ++ [SqlArg.s (searchStr f)] }
  else
    { stmt with sql := stmt.sql ++ " ORDER BY " ++ f.sortBy.str ++ " DESC" }

/-- `postgres.(*statement).addWhereClause`. -/
def addWhereClause (f : Filter) (stmt : Statement) : Statement :=
  let stmt1 :=
    if f.titleSearch ≠ [] then
      { sql := stmt.sql ++ " WHERE title_search @@ to_tsquery(" ++ sq ++ "russian" ++ sq
                 ++ ", $" ++ toString (stmt.args.length + 1) ++ ")",
        args := stmt.args ++ [SqlArg.s (searchStr f)] }
    else stmt
  let stmt2 :=
    if f.date.value > 0 then
      if stmt1.args.length > 0 then
        { sql := stmt1.sql ++ " AND pub_date " ++ f.date.operator ++ " $"
                   ++ toString (stmt1.args.length + 1),
          args := stmt1.args ++ [SqlArg.i f.date.value] }
      else
        { sql := stmt1.sql ++ " WHERE pub_date " ++ f.date.operator ++ " $"
                   ++ toString (stmt1.args.length + 1),
          args := stmt1.args ++ [SqlArg.i f.date.value] }
    else stmt1
  if f.date.value > 0 ∧ f.endDate.value > 0 then
    if stmt2.args.length > 0 then
      { sql := stmt2.sql ++ " AND pub_date " ++ f.endDate.operator ++ " $"
                 ++ toString (stmt2.args.length + 1),
        args := stmt2.args ++ [SqlArg.i f.endDate.value] }
    else { stmt2 with args := stmt2.args ++ [SqlArg.i f.endDate.value] }
  else stmt2

/-- The statement built by `postgres.(*Postgres).Items`: base query, then
WHERE, ORDER BY and LIMIT/OFFSET in that order. -/
def itemsStatement (f : Filter) : Statement :=
  addLimitOffsetClause f (addOrderBy f (addWhereClause f
    ⟨"SELECT id, title, description, pub_date, link FROM news", []⟩))

/-- The pubDate layouts tried in order by `storage.unix.UnmarshalXML`:
RFC1123Z, RFC1123, UnixDate, two custom layouts, ANSIC, RFC850, RFC822,
RFC822Z (the Go constants written out). -/
def layouts : List String :=
  ["Mon, 02 Jan 2006 15:04:05 -0700",
   "Mon, 02 Jan 2006 15:04:05 MST",
   "Mon Jan _2 15:04:05 MST 2006",
   "02 Jan 2006 15:04:05 -0700",
   "Mon, 2 Jan 2006 15:04:05 -0700",
   "Mon Jan _2 15:04:05 2006",
   "Monday, 02-Jan-06 15:04:05 MST",
   "02 Jan 06 15:04 MST",
   "02 Jan 06 15:04 -0700"]

/-- `time.Time{}.Unix()`: the Unix seconds of the zero `time.Time`
(January 1, year 1, 00:00:00 UTC), which `time.Parse` returns on error. -/
def zeroTimeUnix : Int := -62135596800

/-- The layout loop of `storage.unix.UnmarshalXML`: `pt` and `err` are
reassigned on every attempt (a failed `time.Parse` yields the zero time
and an error), and the loop breaks on the first success.  `parse` stands
for the external `time.Parse`, returning the Unix seconds of the parsed
time or `none` on error. -/
def tryLayouts (parse : String → String → Option Int) (s : String) :
    Int → Bool → List String → Int × Bool
  | pt, errb, [] => (pt, errb)
  | _, _, l :: rest =>
    match parse l s with
    | some v => (v, false)
    | none => tryLayouts parse s zeroTimeUnix true rest

/-- `storage.unix.UnmarshalXML` after decoding the element text `s`:
returns the Unix value written to the receiver and whether an error is
returned (an error aborts the whole item decode). -/
def unixUnmarshalXML (parse : String → String → Option Int) (s : String) : Int × Bool :=
  tryLayouts parse s zeroTimeUnix false layouts

end NewsStorage

namespace CommentsSvc

/-- `domain.Author` of the comments service. -/
structure Author where
  id   : Int
  name : String
  deriving DecidableEq, Repr

/-- `domain.Comment` of the comments service (flat ingest shape). -/
structure Comment where
  id       : Int
  newsId   : Int
  replyId  : Int
  postedAt : Int
  text     : String
  author   : Author
  deriving DecidableEq, Repr

/-- Outcome of `api.handleCommentCreate`: the HTTP status plus the id
payload on success. -/
structure CreateResponse where
  status : Nat
  body   : Option Int
  deriving DecidableEq, Repr

/-- `api.handleCommentCreate` (comments/pkg/api): 400 when the body fails
to decode, 400 when the decoded comment has `NewsID == 0` (checked before
the store is consulted), 500 when the store errors, else 201 with the new
id.  `body` is the JSON decode result and `create` the store call. -/
def handleCommentCreate (body : Option Comment) (create : Comment → Except Unit Int) :
    CreateResponse :=
  match body with
  | none => ⟨400, none⟩
  | some c =>
    if c.newsId = 0 then ⟨400, none⟩
    else
      match create c with
      | .error _ => ⟨500, none⟩
      | .ok newId => ⟨201, some newId⟩

/-- The plain insert statement of `sqlite.createComment`. -/
def plainInsert : String :=
  "INSERT INTO comments(author_id, news_id, reply_id, text, timestamp) VALUES($1, $2, $3, $4, $5)"

/-- The news-id-deriving insert statement of `sqlite.createComment`. -/
def deriveInsert : String :=
  "INSERT INTO comments(author_id, news_id, reply_id, text, timestamp) VALUES($1, (SELECT news_id FROM comments WHERE id = $2), $2, $3, $4)"

open NewsStorage in
/-- Statement selection of `sqlite.createComment`: when `NewsID == 0` and
`ReplyID != 0` the insert derives `news_id` from the comment referenced by
`reply_id`; otherwise the plain insert is used.  Returns the SQL text and
its bound arguments. -/
def createComment (c : Comment) : String × List SqlArg :=
  if c.newsId = 0 ∧ c.replyId ≠ 0 then
    (deriveInsert, [SqlArg.i c.author.id, SqlArg.i c.replyId, SqlArg.s c.text, SqlArg.i c.postedAt])
  else
    (plainInsert, [SqlArg.i c.author.id, SqlArg.i c.newsId, SqlArg.i c.replyId,
                   SqlArg.s c.text, SqlArg.i c.postedAt])

end CommentsSvc

namespace NewsApi

open NewsStorage

/-- `storage.Item` of the news service. -/
structure Item where
  id          : Int
  title       : String
  pubDate     : Int
  description : String
  link        : String
  deriving DecidableEq, Repr

/-- The zero `Item` (`item{}` in Go). -/
def Item.zero : Item := ⟨0, "", 0, "", ""⟩

/-- Error kind returned by the store: `pgx.ErrNoRows` or anything else
(connection failure, timeout, ...).  The handler never inspects the kind. -/
inductive StoreErr where
  | noRows
  | other
  deriving DecidableEq, Repr

/-- `api.itemHandler` (newsservice/pkg/api): 404 when the path id fails to
parse; on a store error, 404 when the scanned item equals the zero item
and 500 otherwise; 200 on success.  `parsedId` is the `strconv.ParseInt`
result and `store` the result of `db.Item`. -/
def itemHandler (parsedId : Option Int) (store : Int → Item × Option StoreErr) : Nat :=
  match parsedId with
  | none => 404
  | some n =>
    let r := store n
    match r.2 with
    | some _ => if r.1 = Item.zero then 404 else 500
    | none => 200

/-- `api.operator`: map a query-parameter prefix to a SQL operator. -/
def operator (o : String) : String :=
  if o = "gte" then ">="
  else if o = "lte" then "<="
  else if o = "lt" then "<"
  else if o = "gt" then ">"
  else "="

/-- `strings.HasPrefix`, computed on the underlying character lists. -/
def strHasPrefix (p s : String) : Bool := p.data.isPrefixOf s.data

/-- `strings.Contains(s, c)` for a one-character needle, computed on the
underlying character list. -/
def strContainsChar (s : String) (c : Char) : Bool := s.data.contains c

/-- `strings.SplitN(s, ":", 2)` as the pair (before the first colon, rest
after it); when there is no colon the second component is empty (the Go
code only reads it after a prefix check that guarantees a colon). -/
def splitN2 (s : String) : String × String :=
  (String.mk (s.data.takeWhile (fun c => c != ':')),
   String.mk ((s.data.dropWhile (fun c => c != ':')).drop 1))

/-- `api.timeQParser`: only the literal prefixes `gte:` and `lte:` are
recognized; everything else is parsed as a bare `YYYY-MM-DD` date with
operator `=`.  `parseDate` stands for `time.Parse("2006-01-02", ·)`
returning Unix seconds; `none` is the error case. -/
def timeQParser (parseDate : String → Option Int) (qp : String) : Option TimeFilter :=
  if strHasPrefix "gte:" qp || strHasPrefix "lte:" qp then
    let split := splitN2 qp
    (parseDate split.2).map (fun t => ⟨t, operator split.1⟩)
  else
    (parseDate qp).map (fun t => ⟨t, "="⟩)

/-- `api.sortQParser`. -/
def sortQParser (s : String) : Option SortBy :=
  if s = "" then some SortBy.empty
  else if s = "date" then some SortBy.date
  else if s = "title" then some SortBy.title
  else if s = "match" then some SortBy.rank
  else none

/-- The query parameters read by `api.parseQP`: first value of `page`,
`sortBy`, `date`, `dateEnd` when present, and all values of `s` / `exc`. -/
structure Params where
  page    : Option String
  sortBy  : Option String
  date    : Option String
  dateEnd : Option String
  s       : List String
  exc     : List String
  deriving Repr

/-- `api.parseQP` (newsservice/pkg/api): build a `Filter` from the query
parameters; `none` is the 400 case.  `atoi` stands for `strconv.Atoi`.
The checks on `dateEnd` run in source order: reject an operator containing
`>` or equal to `=`, then reject `dateEnd` without a `date` value. -/
def parseQP (atoi : String → Option Int) (parseDate : String → Option Int)
    (p : Params) : Option Filter :=
  let f0 := Filter.zero
  match (match p.page with
         | some s => (atoi s).map (fun n => { f0 with page := n })
         | none => some { f0 with page := 1 }) with
  | none => none
  | some f1 =>
    match (match p.sortBy with
           | some s => (sortQParser s).map (fun v => { f1 with sortBy := v })
           | none => some f1) with
    | none => none
    | some f2 =>
      match (match p.date with
             | some s => (timeQParser parseDate s).map (fun tf => { f2 with date := tf })
             | none => some f2) with
      | none => none
      | some f3 =>
        match (match p.dateEnd with
               | some s =>
                 match timeQParser parseDate s with
                 | none => none
                 | some tf =>
                   if strContainsChar tf.operator '>' || tf.operator == "=" then none
                   else if f3.date.value = 0 then none
                   else some { f3 with endDate := tf }
               | none => some f3) with
        | none => none
        | some f4 =>
          some { f4 with titleSearch := f4.titleSearch ++ p.s,
                         exclude := f4.exclude ++ p.exc }

end NewsApi

section ToTreeConcrete

open Gateway

/-- Comment with only id and reply_id set, as in the repository's tests. -/
def mkC (i r : Int) : Comment := ⟨i, "", "", 0, r, []⟩

/-- The 14-element input of `Test_ToTree` (gateway/domain/domain_test.go). -/
def toTreeTestInput : List Comment :=
  [mkC 4 1, mkC 5 2, mkC 6 3, mkC 1 0, mkC 2 0, mkC 3 0, mkC 7 4,
   mkC 8 5, mkC 9 6, mkC 10 0, mkC 11 1, mkC 12 2, mkC 13 3, mkC 14 7]

/-- The forest expected by `Test_ToTree`: under root 1, comment 4 has the
single reply 7, and 7 has the single reply 14. -/
def toTreeTestWant : List Comment :=
  [⟨1, "", "", 0, 0,
     [⟨4, "", "", 0, 1, [⟨7, "", "", 0, 4, [⟨14, "", "", 0, 7, []⟩]⟩]⟩,
      ⟨11, "", "", 0, 1, []⟩]⟩,
   ⟨2, "", "", 0, 0,
     [⟨5, "", "", 0, 2, [⟨8, "", "", 0, 5, []⟩]⟩, ⟨12, "", "", 0, 2, []⟩]⟩,
   ⟨3, "", "", 0, 0,
     [⟨6, "", "", 0, 3, [⟨9, "", "", 0, 6, []⟩]⟩, ⟨13, "", "", 0, 3, []⟩]⟩,
   ⟨10, "", "", 0, 0, []⟩]

/-- Preorder ids of the forest `ToTree` actually returns on the test input. -/
def c2ActualIds : List Int := [1, 4, 7, 14, 11, 2, 5, 8, 12, 3, 6, 9, 13, 10]

/-- Preorder ids of the forest described by the claim (comment 14 directly
under comment 4; comment 7 absent). -/
def c2ClaimIds : List Int := [1, 4, 14, 11, 2, 5, 8, 12, 3, 6, 9, 13, 10]

/-- C2 counterexample: on the 14-element test input, `ToTree` does not
return the forest claimed (root 1 with children `[{4 → [{14}]}, {11}]`):
the node with id 4 has the single child 7, and 14 sits below 7, so the
preorder ids differ from the claimed ones. -/
theorem C2_counterexample :
    (ToTree 20 toTreeTestInput).map forestIds = some c2ActualIds ∧
      c2ActualIds ≠ c2ClaimIds := by
  constructor
  · have h : ToTree 20 toTreeTestInput = some toTreeTestWant := rfl
    rw [h]
    simp [toTreeTestWant, forestIds, c2ActualIds]
  · decide

/-- C2 (amended): on the 14-element test input `ToTree` returns the four
roots 1, 2, 3, 10 where root 1 has children `[{4 → [{7 → [{14}]}]}, {11}]`,
root 2 has `[{5 → [{8}]}, {12}]`, root 3 has `[{6 → [{9}]}, {13}]` and
root 10 is a leaf — exactly the forest asserted by the repository's own
`Test_ToTree`. -/
theorem C2_tree : ToTree 20 toTreeTestInput = some toTreeTestWant := rfl

theorem digChildren_nil (m : Int → List Nat) (f j : Nat) (A : List Comment) :
    digChildren m f [] j A = some A := rfl

theorem digChildren_cons (m : Int → List Nat) (f v : Nat) (vs : List Nat) (j : Nat)
    (A : List Comment) :
    digChildren m f (v :: vs) j A =
      (dig m f v A).bind (fun A2 =>
        digChildren m f vs j
          (A2.set j { A2.getD j defaultComment with
                      replies := (A2.getD j defaultComment).replies ++ [A2.getD v defaultComment] })) := by
  cases h : dig m f v A <;> simp [digChildren, List.foldlM_cons, h]

/-- A single comment whose reply_id equals its own id: `dig` keeps finding
a non-empty children entry for it (the map entry is never cleared during
`dig`), so the recursion never stops. -/
def cyclicInput : List Comment := [⟨1, "", "", 0, 1, []⟩]

/-- The children map `ToTree` builds for `cyclicInput`. -/
def cycMap : Int → List Nat := fun k => if k = 1 then [0] else []

theorem dig_cyclicInput (f : Nat) :
    ∀ A, (A.getD 0 defaultComment).id = 1 → dig cycMap f 0 A = none := by
  induction f with
  | zero => intro A _; rfl
  | succ f ih =>
    intro A h
    rw [dig_succ, h]
    rw [if_neg (show ¬cycMap 1 = [] by decide)]
    rw [show cycMap 1 = [0] from rfl, digChildren_cons, ih A h]
    rfl

/-- C10: `ToTree` does not terminate on the malformed single-element input
whose reply_id references itself: for every recursion-depth bound the
fuelled model returns `none` (the Go code recurses without bound here,
because `dig` never clears the children-map entry it is iterating). -/
theorem C10_divergence (f : Nat) : ToTree f cyclicInput = none := by
  have hm : buildMap cyclicInput 0 (fun _ => []) = cycMap := by funext k; rfl
  have hkey : (cyclicInput.getD 0 defaultComment).id = 1 := rfl
  have hd : dig cycMap f 0 cyclicInput = none := dig_cyclicInput f cyclicInput hkey
  have hdc : digChildren cycMap f [0] 0 cyclicInput = none := by
    rw [digChildren_cons, hd]; rfl
  have hloop : toTreeLoop cycMap f [0] cyclicInput = none := by
    show (if cycMap (cyclicInput.getD 0 defaultComment).id = [] then
            toTreeLoop cycMap f [] cyclicInput
          else
            match digChildren cycMap f (cycMap (cyclicInput.getD 0 defaultComment).id) 0 cyclicInput with
            | none => none
            | some A2 => toTreeLoop (updateMap cycMap (cyclicInput.getD 0 defaultComment).id []) f [] A2) = none
    rw [if_neg (show ¬cycMap (cyclicInput.getD 0 defaultComment).id = [] by decide)]
    have h2 : digChildren cycMap f (cycMap (cyclicInput.getD 0 defaultComment).id) 0 cyclicInput = none := hdc
    rw [h2]
  show (match toTreeLoop (buildMap cyclicInput 0 fun _ => []) f (List.range cyclicInput.length) cyclicInput with
        | none => none
        | some (_, A) => some (A.filter fun c => c.replyId == 0)) = none
  rw [hm, show List.range cyclicInput.length = [0] from rfl, hloop]

end ToTreeConcrete

namespace NewsStorage

theorem tryLayouts_first_success (parse : String → String → Option Int) (s l : String)
    (post : List String) (v : Int) :
    ∀ pre : List String, (∀ l' ∈ pre, parse l' s = none) → parse l s = some v →
      ∀ pt eb, tryLayouts parse s pt eb (pre ++ l :: post) = (v, false) := by
  intro pre
  induction pre with
  | nil =>
    intro _ hl pt eb
    show tryLayouts parse s pt eb (l :: post) = (v, false)
    simp [tryLayouts, hl]
  | cons p pre ih =>
    intro hpre hl pt eb
    have hp : parse p s = none := hpre p (by simp)
    show tryLayouts parse s pt eb (p :: (pre ++ l :: post)) = (v, false)
    simp only [tryLayouts, hp]
    exact ih (fun l' h => hpre l' (by simp [h])) hl _ _

theorem tryLayouts_all_fail (parse : String → String → Option Int) (s : String) :
    ∀ ls : List String, ls ≠ [] → (∀ l ∈ ls, parse l s = none) →
      ∀ pt eb, tryLayouts parse s pt eb ls = (zeroTimeUnix, true) := by
  intro ls
  induction ls with
  | nil => intro h; exact absurd rfl h
  | cons l rest ih =>
    intro _ hall pt eb
    have hl : parse l s = none := hall l (by simp)
    simp only [tryLayouts, hl]
    cases rest with
    | nil => rfl
    | cons r rs => exact ih (by simp) (fun l' h => hall l' (by simp [h])) _ _

/-- C4 (amended): decoding a pubDate tries the fixed layout list in order
and the first layout that parses determines the value (with no error);
but when every layout fails, `UnmarshalXML` returns an error — the value
written is the Unix seconds of the zero `time.Time` (−62135596800), not 0,
and the erroring decode never produces an item with pub_date = 0. -/
theorem C4_layout_order :
    (∀ (parse : String → String → Option Int) (s : String) (pre : List String) (l : String)
        (post : List String) (v : Int),
        layouts = pre ++ l :: post → (∀ l' ∈ pre, parse l' s = none) → parse l s = some v →
        unixUnmarshalXML parse s = (v, false)) ∧
    (∀ (parse : String → String → Option Int) (s : String),
        (∀ l ∈ layouts, parse l s = none) →
        unixUnmarshalXML parse s = (zeroTimeUnix, true)) := by
  constructor
  · intro parse s pre l post v hlay hpre hl
    unfold unixUnmarshalXML
    rw [hlay]
    exact tryLayouts_first_success parse s l post v pre hpre hl _ _
  · intro parse s hall
    exact tryLayouts_all_fail parse s layouts (by decide) hall _ _

/-- A stub for `time.Parse` that succeeds only for the RFC1123 layout. -/
def parseStubRFC1123 : String → String → Option Int :=
  fun lay _ => if lay = "Mon, 02 Jan 2006 15:04:05 MST" then some 42 else none

/-- Witness for C4: with a parse function failing on RFC1123Z but
succeeding on RFC1123 the result is the RFC1123 value with no error, and
with an always-failing parse function the result is the zero-time Unix
value together with an error. -/
theorem C4_witness :
    unixUnmarshalXML parseStubRFC1123 "d" = (42, false) ∧
      unixUnmarshalXML (fun _ _ => none) "d" = (zeroTimeUnix, true) :=
  ⟨C4_layout_order.1 parseStubRFC1123 "d" ["Mon, 02 Jan 2006 15:04:05 -0700"]
      "Mon, 02 Jan 2006 15:04:05 MST"
      ["Mon Jan _2 15:04:05 MST 2006", "02 Jan 2006 15:04:05 -0700",
       "Mon, 2 Jan 2006 15:04:05 -0700", "Mon Jan _2 15:04:05 2006",
       "Monday, 02-Jan-06 15:04:05 MST", "02 Jan 06 15:04 MST", "02 Jan 06 15:04 -0700"]
      42 rfl (by intro l' h; simp at h; rw [h]; rfl) rfl,
   C4_layout_order.2 (fun _ _ => none) "d" (fun _ _ => rfl)⟩

/-- C4 counterexample: when every layout fails to parse, the decode does
not yield pub_date = 0 — it returns an error, and the value written is the
zero-time Unix seconds, which differ from 0. -/
theorem C4_total_failure :
    unixUnmarshalXML (fun _ _ => none) "not a date" = (zeroTimeUnix, true) ∧
      zeroTimeUnix ≠ 0 := ⟨rfl, by decide⟩

/-- The filter `{Page: 1}`, as in the repository's own `AddItems` test. -/
def pageOneFilter : Filter := { Filter.zero with page := 1 }

/-- C5 counterexample: for page = 1 the built statement binds LIMIT 10 and
no OFFSET at all — in particular the claimed `OFFSET 0` argument is not
bound. -/
theorem C5_page1 :
    itemsStatement pageOneFilter =
      ⟨"SELECT id, title, description, pub_date, link FROM news ORDER BY pub_date DESC LIMIT $1",
       [SqlArg.i 10]⟩ ∧
      SqlArg.i 0 ∉ (itemsStatement pageOneFilter).args := ⟨rfl, by decide⟩

theorem wrap64_eq_self {z : Int} (h1 : -(2 ^ 63) ≤ z) (h2 : z < 2 ^ 63) :
    wrap64 z = z := by
  unfold wrap64
  rw [Int.emod_eq_of_lt (by omega) (by omega)]
  omega

/-- C5 (amended): the LIMIT/OFFSET clause of the built statement: nothing
is appended when page < 1; ` LIMIT $n` with argument 10 (and no OFFSET)
when page = 1, because the computed offset 0 fails the `> 0` check; and
for page ≥ 2 (page is a machine int, so < 2^63) the offset is (page−1)·10
computed in wrapping 64-bit arithmetic — ` LIMIT $n OFFSET $n+1` binding
10 and that product when it is positive, and ` LIMIT $n` alone (no
OFFSET) when the product wraps around to ≤ 0. -/
theorem C5_limit_offset (f : Filter) (stmt : Statement) :
    (f.page < 1 → addLimitOffsetClause f stmt = stmt) ∧
    (f.page = 1 →
      addLimitOffsetClause f stmt =
        ⟨stmt.sql ++ " LIMIT $" ++ toString (stmt.args.length + 1),
         stmt.args ++ [SqlArg.i 10]⟩) ∧
    (2 ≤ f.page → f.page < 2 ^ 63 → 0 < wrap64 ((f.page - 1) * 10) →
      addLimitOffsetClause f stmt =
        ⟨stmt.sql ++ " LIMIT $" ++ toString (stmt.args.length + 1)
           ++ " OFFSET $" ++ toString (stmt.args.length + 2),
         stmt.args ++ [SqlArg.i 10, SqlArg.i (wrap64 ((f.page - 1) * 10))]⟩) ∧
    (2 ≤ f.page → f.page < 2 ^ 63 → wrap64 ((f.page - 1) * 10) ≤ 0 →
      addLimitOffsetClause f stmt =
        ⟨stmt.sql ++ " LIMIT $" ++ toString (stmt.args.length + 1),
         stmt.args ++ [SqlArg.i 10]⟩) := by
  have hcalc2 : 2 ≤ f.page → f.page < 2 ^ 63 →
      calcLimitOffset f.page PageSize = (10, wrap64 ((f.page - 1) * 10)) := by
    intro h2 hlt
    unfold calcLimitOffset PageSize
    rw [if_neg (by omega), @wrap64_eq_self (f.page - 1) (by omega) (by omega)]
  refine ⟨?_, ?_, ?_, ?_⟩
  · intro h
    have hcalc : calcLimitOffset f.page PageSize = (0, 0) := by
      unfold calcLimitOffset; rw [if_pos h]
    unfold addLimitOffsetClause
    rw [hcalc]
    simp
  · intro h
    have hcalc : calcLimitOffset f.page PageSize = (10, 0) := by
      rw [h]; decide
    unfold addLimitOffsetClause
    rw [hcalc]
    simp
  · intro h2 hlt hpos
    unfold addLimitOffsetClause
    rw [hcalc2 h2 hlt]
    simp only [gt_iff_lt, show (0 : Int) < 10 by norm_num, if_true, hpos,
      List.length_append, List.length_cons, List.length_nil]
    simp [List.append_assoc]
  · intro h2 hlt hnp
    unfold addLimitOffsetClause
    rw [hcalc2 h2 hlt]
    simp only [gt_iff_lt, show (0 : Int) < 10 by norm_num, if_true,
      if_neg (not_lt.mpr hnp)]

/-- Witness for C5: the four page regimes at pages 0, 1, 3 and 2^63−1
(where the wrapping offset is −20, so no OFFSET is emitted) on the base
Items statement. -/
theorem C5_witness :
    addLimitOffsetClause { Filter.zero with page := 0 } ⟨"B", []⟩ = ⟨"B", []⟩ ∧
    addLimitOffsetClause { Filter.zero with page := 1 } ⟨"B", []⟩ =
      ⟨"B" ++ " LIMIT $" ++ toString 1, [SqlArg.i 10]⟩ ∧
    addLimitOffsetClause { Filter.zero with page := 3 } ⟨"B", []⟩ =
      ⟨"B" ++ " LIMIT $" ++ toString 1 ++ " OFFSET $" ++ toString 2,
       [SqlArg.i 10, SqlArg.i 20]⟩ ∧
    addLimitOffsetClause { Filter.zero with page := 9223372036854775807 } ⟨"B", []⟩ =
      ⟨"B" ++ " LIMIT $" ++ toString 1, [SqlArg.i 10]⟩ := by
  refine ⟨(C5_limit_offset _ _).1 (by decide), ?_, ?_, ?_⟩
  · have h := (C5_limit_offset { Filter.zero with page := 1 } ⟨"B", []⟩).2.1 rfl
    simpa using h
  · have h := (C5_limit_offset { Filter.zero with page := 3 } ⟨"B", []⟩).2.2.1
      (by decide) (by decide) (by decide)
    simpa using h
  · exact (C5_limit_offset { Filter.zero with page := 9223372036854775807 }
      ⟨"B", []⟩).2.2.2 (by decide) (by decide) (by decide)

end NewsStorage

namespace NewsStorage

/-- C6: the ORDER BY clause of the built statement: `pub_date DESC` when
sort is unset; `ts_rank(title_search, to_tsquery('russian', $n)) DESC`
with the constructed search string bound when sorting by rank with a
non-empty title search; otherwise the sort column (`pub_date`, `title` or
`rank`) descending — in particular rank with an empty title search yields
`ORDER BY rank DESC`. -/
theorem C6_order_by (f : Filter) (stmt : Statement) :
    (f.sortBy = SortBy.empty →
      addOrderBy f stmt = { stmt with sql := stmt.sql ++ " ORDER BY " ++ "pub_date" ++ " DESC" }) ∧
    (f.sortBy = SortBy.rank → f.titleSearch ≠ [] →
      addOrderBy f stmt =
        ⟨stmt.sql ++ " ORDER BY ts_rank(title_search, to_tsquery(" ++ sq ++ "russian" ++ sq
           ++ ", $" ++ toString (stmt.args.length + 1) ++ ")) DESC",
         stmt.args ++ [SqlArg.s (searchStr f)]⟩) ∧
    (f.sortBy ≠ SortBy.empty → ¬(f.sortBy = SortBy.rank ∧ f.titleSearch ≠ []) →
      addOrderBy f stmt = { stmt with sql := stmt.sql ++ " ORDER BY " ++ f.sortBy.str ++ " DESC" }) ∧
    (f.sortBy = SortBy.rank → f.titleSearch = [] →
      addOrderBy f stmt = { stmt with sql := stmt.sql ++ " ORDER BY " ++ "rank" ++ " DESC" }) := by
  refine ⟨?_, ?_, ?_, ?_⟩
  · intro h
    unfold addOrderBy
    rw [if_pos h]
    rfl
  · intro h hts
    unfold addOrderBy
    rw [if_neg (by rw [h]; intro hc; cases hc), if_pos ⟨h, hts⟩]
  · intro h hnot
    unfold addOrderBy
    rw [if_neg h, if_neg hnot]
  · intro h hts
    unfold addOrderBy
    rw [if_neg (by rw [h]; intro hc; cases hc), if_neg (by rw [h, hts]; simp), h]
    rfl

/-- Witness for C6: the three ORDER BY regimes on concrete filters. -/
theorem C6_witness :
    addOrderBy Filter.zero ⟨"B", []⟩ = ⟨"B" ++ " ORDER BY " ++ "pub_date" ++ " DESC", []⟩ ∧
    addOrderBy { Filter.zero with sortBy := SortBy.rank, titleSearch := ["go"] } ⟨"B", []⟩ =
      ⟨"B" ++ " ORDER BY ts_rank(title_search, to_tsquery(" ++ sq ++ "russian" ++ sq
         ++ ", $" ++ toString 1 ++ ")) DESC",
       [SqlArg.s (searchStr { Filter.zero with sortBy := SortBy.rank, titleSearch := ["go"] })]⟩ ∧
    addOrderBy { Filter.zero with sortBy := SortBy.rank } ⟨"B", []⟩ =
      ⟨"B" ++ " ORDER BY " ++ "rank" ++ " DESC", []⟩ := by
  refine ⟨(C6_order_by _ _).1 rfl, ?_, ?_⟩
  · have h := (C6_order_by { Filter.zero with sortBy := SortBy.rank, titleSearch := ["go"] }
      ⟨"B", []⟩).2.1 rfl (by simp)
    simpa using h
  · exact (C6_order_by { Filter.zero with sortBy := SortBy.rank } ⟨"B", []⟩).2.2.2 rfl rfl

/-- C7: the full-text WHERE clause: with a non-empty title search, the
statement gains ` WHERE title_search @@ to_tsquery('russian', $1)` whose
bound argument is the terms joined by `&`, followed — exactly when the
exclude list is non-empty — by `&!` and the exclude terms joined by `&!`;
with an empty title search no full-text clause is emitted (only the
plain pub_date comparisons can follow). -/
theorem C7_where_clause (f : Filter) (stmt : Statement) (hargs : stmt.args = []) :
    (f.titleSearch ≠ [] →
      (addWhereClause f stmt).args.head? = some (SqlArg.s (searchStr f)) ∧
      ∃ rest, (addWhereClause f stmt).sql =
        stmt.sql ++ (" WHERE title_search @@ to_tsquery(" ++ sq ++ "russian" ++ sq
          ++ ", $" ++ toString 1 ++ ")") ++ rest) ∧
    (searchStr f = String.intercalate "&" f.titleSearch
        ++ (if f.exclude = [] then "" else "&!" ++ String.intercalate "&!" f.exclude)) ∧
    (f.titleSearch = [] →
      (¬f.date.value > 0 → addWhereClause f stmt = stmt) ∧
      (f.date.value > 0 → ¬f.endDate.value > 0 →
        addWhereClause f stmt =
          ⟨stmt.sql ++ " WHERE pub_date " ++ f.date.operator ++ " $" ++ toString 1,
           [SqlArg.i f.date.value]⟩) ∧
      (f.date.value > 0 → f.endDate.value > 0 →
        addWhereClause f stmt =
          ⟨stmt.sql ++ " WHERE pub_date " ++ f.date.operator ++ " $" ++ toString 1
             ++ " AND pub_date " ++ f.endDate.operator ++ " $" ++ toString 2,
           [SqlArg.i f.date.value, SqlArg.i f.endDate.value]⟩)) := by
  obtain ⟨sql0, args0⟩ := stmt
  simp only at hargs
  subst hargs
  refine ⟨?_, ?_, ?_⟩
  · intro hts
    by_cases hd : f.date.value > 0
    · by_cases he : f.endDate.value > 0
      · constructor
        · simp [addWhereClause, hts, hd, he]
        · refine ⟨" AND pub_date " ++ f.date.operator ++ " $" ++ toString 2
            ++ " AND pub_date " ++ f.endDate.operator ++ " $" ++ toString 3, ?_⟩
          simp [addWhereClause, hts, hd, he, String.append_assoc]
          all_goals rfl
      · constructor
        · simp [addWhereClause, hts, hd, he]
        · refine ⟨" AND pub_date " ++ f.date.operator ++ " $" ++ toString 2, ?_⟩
          simp [addWhereClause, hts, hd, he, String.append_assoc]
          all_goals rfl
    · constructor
      · simp [addWhereClause, hts, hd]
      · refine ⟨"", ?_⟩
        simp [addWhereClause, hts, hd, String.append_assoc]
  · unfold searchStr
    by_cases he : f.exclude = []
    · simp [he, show ("&!".intercalate [] : String) = "" from rfl]
    · simp only [if_neg he, he, ite_false, ne_eq, not_false_eq_true, ite_true]
      rw [String.append_assoc]
  · intro hts
    refine ⟨?_, ?_, ?_⟩
    · intro hd
      simp [addWhereClause, hts, hd]
    · intro hd he
      simp [addWhereClause, hts, hd, he]
    · intro hd he
      simp [addWhereClause, hts, hd, he]

end NewsStorage

namespace NewsStorage

/-- Filter used to instantiate the C7 theorem. -/
def c7Filter : Filter := { Filter.zero with titleSearch := ["a", "b"], exclude := ["c"] }

/-- Witness for C7: with search terms `a`, `b` and exclude term `c` the
bound argument is the constructed string `a&b&!c`. -/
theorem C7_witness :
    (addWhereClause c7Filter ⟨"B", []⟩).args.head? = some (SqlArg.s (searchStr c7Filter)) ∧
      searchStr c7Filter = "a&b&!c" := by
  refine ⟨((C7_where_clause c7Filter ⟨"B", []⟩ rfl).1 (by simp [c7Filter])).1, ?_⟩
  have h := (C7_where_clause c7Filter ⟨"B", []⟩ rfl).2.1
  rw [h]
  rfl

end NewsStorage

namespace NewsApi

open NewsStorage

/-- A store whose lookup fails with an internal (non-not-found) error and
a zero scanned item — e.g. a closed connection or a timeout. -/
def storeInternalErr : Int → Item × Option StoreErr :=
  fun _ => (Item.zero, some StoreErr.other)

/-- C8 counterexample: an internal store error with a zero scanned item is
answered with 404, not the claimed 500 — the handler discriminates by
`it == (item{})`, never by the error kind. -/
theorem C8_internal_as_404 :
    itemHandler (some 7) storeInternalErr = 404 ∧ (404 : Nat) ≠ 500 := ⟨rfl, by decide⟩

/-- C8 (amended): `GET /news/{id}` answers 200 with the item on success;
on a store error it answers 404 exactly when the scanned item is the zero
item — which covers not-found but also every internal error that yields no
row — and 500 only when an error arrives together with a non-zero item; an
unparsable id is answered 404. -/
theorem C8_item_handler (n : Int) (st : Int → Item × Option StoreErr) :
    (itemHandler none st = 404) ∧
    ((st n).2 = none → itemHandler (some n) st = 200) ∧
    ((st n).2 ≠ none → (st n).1 = Item.zero → itemHandler (some n) st = 404) ∧
    ((st n).2 ≠ none → (st n).1 ≠ Item.zero → itemHandler (some n) st = 500) := by
  refine ⟨rfl, ?_, ?_, ?_⟩
  · intro h
    simp [itemHandler, h]
  · intro h hz
    unfold itemHandler
    cases he : (st n).2 with
    | none => exact absurd he h
    | some e => simp [he, hz]
  · intro h hz
    unfold itemHandler
    cases he : (st n).2 with
    | none => exact absurd he h
    | some e => simp [he, hz]

/-- A store with one stored row at id 1 and internal failure elsewhere. -/
def storeOneRow : Int → Item × Option StoreErr :=
  fun n => if n = 1 then (⟨1, "t", 5, "d", "l"⟩, none) else (Item.zero, some StoreErr.noRows)

/-- Witness for C8: the three dispatch regimes of the by-id handler on a
concrete store. -/
theorem C8_witness :
    itemHandler (some 1) storeOneRow = 200 ∧
    itemHandler (some 2) storeOneRow = 404 ∧
    itemHandler (some 5) storeInternalErr = 404 := by
  refine ⟨(C8_item_handler 1 storeOneRow).2.1 rfl,
          (C8_item_handler 2 storeOneRow).2.2.1 (by decide) rfl,
          (C8_item_handler 5 storeInternalErr).2.2.1 (by decide) rfl⟩

/-- A stub for `time.Parse("2006-01-02", ·)`: succeeds exactly on the
well-formed date `2022-08-01` (in particular it fails on
`gt:2022-08-01`, as the real parser does on a non-digit year). -/
def parseDateStub : String → Option Int :=
  fun s => if s = "2022-08-01" then some 1659312000 else none

/-- C9 counterexample: a `gt:`-prefixed date parameter is not mapped to
the `>` operator — only `gte:` and `lte:` pass the prefix test, so
`gt:2022-08-01` falls through to the bare-date parse, fails, and yields
the 400 error path instead of the claimed TimeFilter. -/
theorem C9_gt_rejected :
    timeQParser parseDateStub "gt:2022-08-01" = none ∧
      timeQParser parseDateStub "gt:2022-08-01" ≠ some ⟨1659312000, ">"⟩ := by
  refine ⟨rfl, ?_⟩
  intro h
  rw [show timeQParser parseDateStub "gt:2022-08-01" = none from rfl] at h
  cases h

/-- C9 (amended): date parameters accept only the prefixes `gte:` and
`lte:` (mapped to `>=` and `<=`) or a bare date (operator `=`); any other
prefix — including the claimed `gt:` and `lt:` — reaches the bare-date
parse and fails, producing 400.  `dateEnd` is rejected when its operator
contains `>` or is `=`, and also when no `date` was supplied; with `date`
present and a `lte:` end date, both filters are set. -/
theorem C9_date_params :
    (∀ (pd : String → Option Int) (qp d : String) (v : Int),
      strHasPrefix "gte:" qp = true → splitN2 qp = ("gte", d) → pd d = some v →
      timeQParser pd qp = some ⟨v, ">="⟩) ∧
    (∀ (pd : String → Option Int) (qp d : String) (v : Int),
      strHasPrefix "lte:" qp = true → splitN2 qp = ("lte", d) → pd d = some v →
      timeQParser pd qp = some ⟨v, "<="⟩) ∧
    (∀ (pd : String → Option Int) (qp : String) (v : Int),
      strHasPrefix "gte:" qp = false → strHasPrefix "lte:" qp = false → pd qp = some v →
      timeQParser pd qp = some ⟨v, "="⟩) ∧
    (∀ (pd : String → Option Int) (qp : String),
      strHasPrefix "gte:" qp = false → strHasPrefix "lte:" qp = false → pd qp = none →
      timeQParser pd qp = none) ∧
    (∀ (atoi pd : String → Option Int) (e : String) (tf : TimeFilter) (s exc : List String),
      timeQParser pd e = some tf →
      (strContainsChar tf.operator '>' || tf.operator == "=") = true →
      parseQP atoi pd ⟨none, none, none, some e, s, exc⟩ = none) ∧
    (∀ (atoi pd : String → Option Int) (e : String) (tf : TimeFilter) (s exc : List String),
      timeQParser pd e = some tf →
      (strContainsChar tf.operator '>' || tf.operator == "=") = false →
      parseQP atoi pd ⟨none, none, none, some e, s, exc⟩ = none) ∧
    (∀ (atoi pd : String → Option Int) (d e : String) (vd : Int) (opd : String) (ve : Int)
        (s exc : List String),
      timeQParser pd d = some ⟨vd, opd⟩ → vd ≠ 0 → timeQParser pd e = some ⟨ve, "<="⟩ →
      parseQP atoi pd ⟨none, none, some d, some e, s, exc⟩ =
        some ⟨exc, SortBy.empty, 1, ⟨vd, opd⟩, ⟨ve, "<="⟩, s⟩) := by
  refine ⟨?_, ?_, ?_, ?_, ?_, ?_, ?_⟩
  · intro pd qp d v hpre hsplit hv
    unfold timeQParser
    rw [if_pos (by simp [hpre]), hsplit]
    simp [hv, operator]
  · intro pd qp d v hpre hsplit hv
    unfold timeQParser
    rw [if_pos (by simp [hpre]), hsplit]
    simp [hv, operator]
  · intro pd qp v h1 h2 hv
    unfold timeQParser
    rw [if_neg (by simp [h1, h2]), hv]
    rfl
  · intro pd qp h1 h2 hv
    unfold timeQParser
    rw [if_neg (by simp [h1, h2]), hv]
    rfl
  · intro atoi pd e tf s exc htf hop
    simp [parseQP, htf, hop]
  · intro atoi pd e tf s exc htf hop
    simp [parseQP, htf, hop, Filter.zero, TimeFilter.zero]
  · intro atoi pd d e vd opd ve s exc hd hvd he
    have hc : strContainsChar "<=" '>' = false := rfl
    simp [parseQP, hd, he, hvd, hc, Filter.zero, TimeFilter.zero]

/-- Witness for C9: concrete dates through the parser — `gte:` maps to
`>=`, a bare date to `=`, a `gte:`-prefixed `dateEnd` is rejected, a
`lte:` `dateEnd` without `date` is rejected, and a full `date`/`dateEnd`
pair builds the filter. -/
theorem C9_witness :
    timeQParser parseDateStub "gte:2022-08-01" = some ⟨1659312000, ">="⟩ ∧
    timeQParser parseDateStub "2022-08-01" = some ⟨1659312000, "="⟩ ∧
    parseQP (fun _ => none) parseDateStub ⟨none, none, none, some "gte:2022-08-01", [], []⟩ = none ∧
    parseQP (fun _ => none) parseDateStub ⟨none, none, none, some "lte:2022-08-01", [], []⟩ = none ∧
    parseQP (fun _ => none) parseDateStub
        ⟨none, none, some "2022-08-01", some "lte:2022-08-01", ["go"], ["x"]⟩ =
      some ⟨["x"], SortBy.empty, 1, ⟨1659312000, "="⟩, ⟨1659312000, "<="⟩, ["go"]⟩ := by
  refine ⟨C9_date_params.1 parseDateStub _ "2022-08-01" _ rfl rfl rfl,
          C9_date_params.2.2.1 parseDateStub _ _ rfl rfl rfl,
          C9_date_params.2.2.2.2.1 _ parseDateStub _ ⟨1659312000, ">="⟩ _ _
            (C9_date_params.1 parseDateStub _ "2022-08-01" _ rfl rfl rfl) rfl,
          C9_date_params.2.2.2.2.2.1 _ parseDateStub _ ⟨1659312000, "<="⟩ _ _
            (C9_date_params.2.1 parseDateStub _ "2022-08-01" _ rfl rfl rfl) rfl,
          C9_date_params.2.2.2.2.2.2 _ parseDateStub _ _ _ "=" _ _ _
            (C9_date_params.2.2.1 parseDateStub _ _ rfl rfl rfl) (by decide)
            (C9_date_params.2.1 parseDateStub _ "2022-08-01" _ rfl rfl rfl)⟩

end NewsApi

namespace CommentsSvc

/-- The comment of the repository's own sqlite test (`testcom4`): no
news_id, but a reply to comment 2 — the store derives its news_id. -/
def failingComment : Comment :=
  ⟨4, 0, 2, 1659947258, "this is test comment as reply to john comment", ⟨4, "gary"⟩⟩

open NewsStorage in
/-- C3: the store layer selects the news-id-deriving insert for a comment
with news_id = 0 and reply_id > 0 (and the repository's sqlite test
exercises exactly this) — but `handleCommentCreate` answers 400 for every
comment with news_id = 0 before the store is ever consulted, so such a
comment never reaches the deriving insert through `POST /comments`. -/
theorem C3_handler_rejects_derivable :
    (∀ create : Comment → Except Unit Int,
      handleCommentCreate (some failingComment) create = ⟨400, none⟩) ∧
    createComment failingComment =
      (deriveInsert,
       [SqlArg.i 4, SqlArg.i 2,
        SqlArg.s "this is test comment as reply to john comment", SqlArg.i 1659947258]) :=
  ⟨fun _ => rfl, rfl⟩

end CommentsSvc

namespace Gateway

/-! Infrastructure for the `ToTree` correctness proof: a characterization
of the children map built by the first loop, and helpers for indexing. -/

/-- The id of the comment at index `x` of the input (out of range: 0). -/
def key (cs : List Comment) (x : Nat) : Int := (cs.getD x defaultComment).id

/-- Indices (counted from `i`) of the elements of `l` whose reply_id is
`k`, in order — the content of one children-map entry. -/
def childFrom (k : Int) : List Comment → Nat → List Nat
  | [], _ => []
  | c :: rest, i =>
    if c.replyId = k then i :: childFrom k rest (i + 1) else childFrom k rest (i + 1)

theorem buildMap_zero (l : List Comment) : ∀ (i : Nat) (m : Int → List Nat),
    buildMap l i m 0 = m 0 := by
  induction l with
  | nil => intro i m; rfl
  | cons c rest ih =>
    intro i m
    unfold buildMap
    by_cases h : c.replyId = 0
    · rw [if_pos h, ih]
    · rw [if_neg h, ih]
      simp [updateMap, Ne.symm h]

theorem buildMap_eq (l : List Comment) (k : Int) (hk : k ≠ 0) :
    ∀ (i : Nat) (m : Int → List Nat), buildMap l i m k = m k ++ childFrom k l i := by
  induction l with
  | nil => intro i m; simp [buildMap, childFrom]
  | cons c rest ih =>
    intro i m
    unfold buildMap childFrom
    by_cases h : c.replyId = 0
    · rw [if_pos h, if_neg (by rw [h]; exact Ne.symm hk), ih]
    · rw [if_neg h, ih]
      by_cases hck : c.replyId = k
      · rw [if_pos hck]
        simp [updateMap, hck]
      · rw [if_neg hck]
        simp only [updateMap]
        rw [if_neg (fun h2 => hck h2.symm)]

/-- The children map of `ToTree` on input `cs`. -/
def m0 (cs : List Comment) : Int → List Nat := buildMap cs 0 (fun _ => [])

theorem m0_zero (cs : List Comment) : m0 cs 0 = [] := buildMap_zero cs 0 _

theorem m0_eq (cs : List Comment) (k : Int) (hk : k ≠ 0) : m0 cs k = childFrom k cs 0 := by
  unfold m0
  rw [buildMap_eq cs k hk]
  rfl

theorem childFrom_mem (k : Int) : ∀ (l : List Comment) (i : Nat) (j : Nat),
    j ∈ childFrom k l i ↔
      i ≤ j ∧ j - i < l.length ∧ (l.getD (j - i) defaultComment).replyId = k := by
  intro l
  induction l with
  | nil => intro i j; simp [childFrom]
  | cons c rest ih =>
    intro i j
    unfold childFrom
    by_cases h : c.replyId = k
    · rw [if_pos h]
      simp only [List.mem_cons, ih]
      constructor
      · rintro (rfl | ⟨h1, h2, h3⟩)
        · exact ⟨le_refl _, by simp, by simpa using h⟩
        · exact ⟨by omega, by simp; omega, by
            have : j - i = (j - (i + 1)) + 1 := by omega
            rw [this]; simpa using h3⟩
      · rintro ⟨h1, h2, h3⟩
        by_cases hj : j = i
        · exact Or.inl hj
        · refine Or.inr ⟨by omega, by simp at h2; omega, ?_⟩
          have : j - i = (j - (i + 1)) + 1 := by omega
          rw [this] at h3; simpa using h3
    · rw [if_neg h]
      rw [ih]
      constructor
      · rintro ⟨h1, h2, h3⟩
        refine ⟨by omega, by simp; omega, ?_⟩
        have : j - i = (j - (i + 1)) + 1 := by omega
        rw [this]; simpa using h3
      · rintro ⟨h1, h2, h3⟩
        have hj : j ≠ i := by
          rintro rfl
          simp at h3
          exact h (by simpa using h3)
        refine ⟨by omega, by simp at h2; omega, ?_⟩
        have : j - (i + 1) = (j - i) - 1 := by omega
        rw [this]
        have h4 : j - i = ((j - i) - 1) + 1 := by omega
        rw [h4] at h3
        simpa using h3

theorem m0_mem (cs : List Comment) (k : Int) (j : Nat) :
    j ∈ m0 cs k ↔ k ≠ 0 ∧ j < cs.length ∧ (cs.getD j defaultComment).replyId = k := by
  by_cases hk : k = 0
  · subst hk
    simp [m0_zero]
  · rw [m0_eq cs k hk, childFrom_mem]
    simp [hk]

theorem childFrom_ge (k : Int) : ∀ (l : List Comment) (i : Nat) (j : Nat),
    j ∈ childFrom k l i → i ≤ j := by
  intro l i j h
  exact ((childFrom_mem k l i j).1 h).1

theorem childFrom_nodup (k : Int) : ∀ (l : List Comment) (i : Nat),
    (childFrom k l i).Nodup := by
  intro l
  induction l with
  | nil => intro i; simp [childFrom]
  | cons c rest ih =>
    intro i
    unfold childFrom
    by_cases h : c.replyId = k
    · rw [if_pos h]
      refine List.Nodup.cons ?_ (ih (i + 1))
      intro hmem
      have := childFrom_ge k rest (i + 1) i hmem
      omega
    · rw [if_neg h]; exact ih (i + 1)

theorem m0_nodup (cs : List Comment) (k : Int) : (m0 cs k).Nodup := by
  by_cases hk : k = 0
  · subst hk; simp [m0_zero]
  · rw [m0_eq cs k hk]; exact childFrom_nodup k cs 0

/-- With pairwise-distinct ids, `key` is injective on valid indices. -/
theorem key_inj {cs : List Comment} (hnd : (cs.map Comment.id).Nodup)
    {x y : Nat} (hx : x < cs.length) (hy : y < cs.length)
    (h : key cs x = key cs y) : x = y := by
  unfold key at h
  rw [List.getD_eq_getElem cs defaultComment hx, List.getD_eq_getElem cs defaultComment hy] at h
  have hx2 : x < (cs.map Comment.id).length := by simpa using hx
  have hy2 : y < (cs.map Comment.id).length := by simpa using hy
  have h2 : (cs.map Comment.id).get ⟨x, hx2⟩ = (cs.map Comment.id).get ⟨y, hy2⟩ := by
    rw [List.get_eq_getElem, List.get_eq_getElem, List.getElem_map, List.getElem_map]
    exact h
  have h3 : (⟨x, hx2⟩ : Fin (cs.map Comment.id).length) = ⟨y, hy2⟩ :=
    (List.Nodup.get_inj_iff hnd).mp h2
  exact congrArg Fin.val h3

end Gateway

namespace Gateway

/-- Append `l` to the replies of `c` (the effect of the Go
`c.Replies = append(c.Replies, ...)` statements). -/
def appendReplies (c : Comment) (l : List Comment) : Comment :=
  { c with replies := c.replies ++ l }

theorem appendReplies_nil (c : Comment) : appendReplies c [] = c := by
  cases c
  simp [appendReplies]

theorem appendReplies_append (c : Comment) (l1 l2 : List Comment) :
    appendReplies (appendReplies c l1) l2 = appendReplies c (l1 ++ l2) := by
  simp [appendReplies]

theorem stripReplies_appendReplies (c : Comment) (l : List Comment) :
    stripReplies (appendReplies c l) = stripReplies c := rfl

theorem getD_set_self (l : List Comment) (j : Nat) (c : Comment) (h : j < l.length) :
    (l.set j c).getD j defaultComment = c := by
  rw [List.getD_eq_getElem _ _ (by simpa using h)]
  simp [List.getElem_set_self]

theorem getD_set_ne (l : List Comment) (j x : Nat) (c : Comment) (h : x ≠ j) :
    (l.set j c).getD x defaultComment = l.getD x defaultComment := by
  by_cases hx : x < l.length
  · rw [List.getD_eq_getElem _ _ (by simpa using hx), List.getD_eq_getElem _ _ hx]
    exact List.getElem_set_ne (Ne.symm h) (by simpa using hx)
  · have h1 : (l.set j c).length ≤ x := by simp; omega
    have h2 : l.length ≤ x := by omega
    rw [List.getD_eq_default _ _ h1, List.getD_eq_default _ _ h2]

/-- The live children map at loop boundary `i`: the entry for every key
owned by a processed index is cleared; every other entry is the built one. -/
def mAt (cs : List Comment) (i : Nat) : Int → List Nat :=
  fun k => if (List.range i).any (fun j => key cs j == k) then [] else m0 cs k

theorem mAt_zero (cs : List Comment) : mAt cs 0 = m0 cs := by
  funext k
  simp [mAt]

theorem mAt_sub (cs : List Comment) (i : Nat) (k : Int) :
    mAt cs i k = [] ∨ mAt cs i k = m0 cs k := by
  unfold mAt
  by_cases h : (List.range i).any (fun j => key cs j == k)
  · rw [if_pos h]; exact Or.inl rfl
  · rw [if_neg h]; exact Or.inr rfl

theorem mem_mAt {cs : List Comment} {i : Nat} {k : Int} {j : Nat} (h : j ∈ mAt cs i k) :
    j ∈ m0 cs k := by
  rcases mAt_sub cs i k with h' | h'
  · rw [h'] at h; cases h
  · rwa [h'] at h

theorem mAt_uncleared (cs : List Comment) (i : Nat) (k : Int)
    (h : ∀ j < i, key cs j ≠ k) : mAt cs i k = m0 cs k := by
  unfold mAt
  rw [if_neg]
  simp only [List.any_eq_true, List.mem_range, not_exists, not_and]
  intro j hj
  simpa using h j hj

theorem mAt_succ (cs : List Comment) (i : Nat) :
    updateMap (mAt cs i) (key cs i) [] = mAt cs (i + 1) := by
  funext k
  unfold updateMap mAt
  by_cases hk : k = key cs i
  · rw [if_pos hk]
    rw [if_pos (show ((List.range (i + 1)).any (fun j => key cs j == k)) = true by
      simp only [List.any_eq_true, List.mem_range]
      exact ⟨i, by omega, by simp [hk]⟩)]
  · rw [if_neg hk]
    have : ((List.range (i + 1)).any (fun j => key cs j == k))
        = ((List.range i).any (fun j => key cs j == k)) := by
      refine Bool.eq_iff_iff.mpr ?_
      simp only [List.any_eq_true, List.mem_range]
      constructor
      · rintro ⟨j, hj, hkey⟩
        refine ⟨j, ?_, hkey⟩
        rcases Nat.lt_succ_iff_lt_or_eq.mp hj with h' | rfl
        · exact h'
        · exact absurd (by simpa using hkey) (fun h2 : key cs j = k => hk h2.symm)
      · rintro ⟨j, hj, hkey⟩
        exact ⟨j, by omega, hkey⟩
    rw [this]

end Gateway

namespace Gateway

/-- The intended value of the subtree rooted at index `j`: the comment at
`j` with the recursively built trees of its mapped children appended to
its replies, in map order.  `g` is structural fuel; by monotonicity the
value is independent of it once defined. -/
def specTree (cs : List Comment) (m : Int → List Nat) : Nat → Nat → Option Comment
  | 0, _ => none
  | g + 1, j =>
    (List.mapM (fun v => specTree cs m g v) (m (key cs j))).map
      (fun rs => appendReplies (cs.getD j defaultComment) rs)

theorem mapM_some_iff_forall₂ (F : Nat → Option Comment) :
    ∀ (l : List Nat) (rs : List Comment),
      List.mapM F l = some rs ↔ List.Forall₂ (fun a b => F a = some b) l rs := by
  intro l
  induction l with
  | nil =>
    intro rs
    constructor
    · intro h
      simp only [List.mapM_nil, pure, Option.some.injEq] at h
      subst h
      exact List.Forall₂.nil
    · intro h
      cases h
      rfl
  | cons a l ih =>
    intro rs
    constructor
    · intro h
      simp only [List.mapM_cons, bind, pure] at h
      cases hfa : F a with
      | none => rw [hfa] at h; cases h
      | some b =>
        rw [hfa] at h
        simp only [Option.some_bind] at h
        cases hml : List.mapM F l with
        | none => rw [hml] at h; cases h
        | some bs =>
          rw [hml] at h
          simp only [Option.some_bind, Option.some.injEq] at h
          subst h
          exact List.Forall₂.cons hfa ((ih bs).mp hml)
    · intro h
      cases h with
      | cons hab htail =>
        simp only [List.mapM_cons, bind, hab, Option.some_bind, (ih _).mpr htail, pure]

theorem mapM_congr_of_some {F G : Nat → Option Comment}
    (hFG : ∀ v c, F v = some c → G v = some c) :
    ∀ (l : List Nat) (rs : List Comment), List.mapM F l = some rs → List.mapM G l = some rs := by
  intro l rs h
  rw [mapM_some_iff_forall₂] at h ⊢
  exact h.imp (fun {a b} hfc => hFG a b hfc)

theorem specTree_mono (cs : List Comment) (m : Int → List Nat) :
    ∀ (g : Nat) (j : Nat) (c : Comment),
      specTree cs m g j = some c → specTree cs m (g + 1) j = some c := by
  intro g
  induction g with
  | zero => intro j c h; cases h
  | succ g ih =>
    intro j c h
    unfold specTree at h ⊢
    cases hml : List.mapM (fun v => specTree cs m g v) (m (key cs j)) with
    | none => rw [hml] at h; cases h
    | some rs =>
      rw [hml] at h
      rw [mapM_congr_of_some (fun v c hvc => ih v c hvc) _ rs hml]
      exact h

theorem specTree_le (cs : List Comment) (m : Int → List Nat) {g g' : Nat} (hle : g ≤ g') :
    ∀ {j : Nat} {c : Comment}, specTree cs m g j = some c → specTree cs m g' j = some c := by
  induction hle with
  | refl => intro j c h; exact h
  | step _ ih => intro j c h; exact specTree_mono cs m _ _ _ (ih h)

/-- The subtree at index `j` is defined and equals `c` (for some fuel). -/
def Good (cs : List Comment) (m : Int → List Nat) (j : Nat) (c : Comment) : Prop :=
  ∃ g, specTree cs m g j = some c

theorem Good_unique {cs : List Comment} {m : Int → List Nat} {j : Nat} {c1 c2 : Comment}
    (h1 : Good cs m j c1) (h2 : Good cs m j c2) : c1 = c2 := by
  obtain ⟨g1, h1⟩ := h1
  obtain ⟨g2, h2⟩ := h2
  have e1 := specTree_le cs m (Nat.le_max_left g1 g2) h1
  have e2 := specTree_le cs m (Nat.le_max_right g1 g2) h2
  rw [e1] at e2
  exact Option.some.inj e2

theorem Good_iff (cs : List Comment) (m : Int → List Nat) (j : Nat) (c : Comment) :
    Good cs m j c ↔
      ∃ rs, List.Forall₂ (Good cs m) (m (key cs j)) rs ∧
        c = appendReplies (cs.getD j defaultComment) rs := by
  constructor
  · rintro ⟨g, h⟩
    cases g with
    | zero => cases h
    | succ g =>
      unfold specTree at h
      cases hml : List.mapM (fun v => specTree cs m g v) (m (key cs j)) with
      | none => rw [hml] at h; cases h
      | some rs =>
        rw [hml] at h
        have h' : appendReplies (cs.getD j defaultComment) rs = c := Option.some.inj h
        refine ⟨rs, ?_, h'.symm⟩
        exact ((mapM_some_iff_forall₂ _ _ _).mp hml).imp (fun {v c} hvc => ⟨g, hvc⟩)
  · rintro ⟨rs, hall, rfl⟩
    have haux : ∀ (L : List Nat) (ws : List Comment), List.Forall₂ (Good cs m) L ws →
        ∃ g, List.Forall₂ (fun v r => specTree cs m g v = some r) L ws := by
      intro L ws hall'
      induction hall' with
      | nil => exact ⟨0, List.Forall₂.nil⟩
      | cons hvr htail ihtail =>
        obtain ⟨g1, hg1⟩ := hvr
        obtain ⟨g2, hg2⟩ := ihtail
        refine ⟨max g1 g2, List.Forall₂.cons (specTree_le cs m (Nat.le_max_left g1 g2) hg1) ?_⟩
        exact hg2.imp (fun {v r} hvc => specTree_le cs m (Nat.le_max_right g1 g2) hvc)
    obtain ⟨g, hg⟩ := haux _ _ hall
    refine ⟨g + 1, ?_⟩
    unfold specTree
    rw [(mapM_some_iff_forall₂ _ _ _).mpr hg]
    rfl

end Gateway

namespace Gateway

/-- `A'` extends `A` pointwise: same length, and every entry of `A'` is
the corresponding entry of `A` with some (possibly empty) list appended to
its replies.  This is the only way `dig` changes the slice. -/
def Ext (A A' : List Comment) : Prop :=
  A'.length = A.length ∧
    ∀ x, ∃ b, A'.getD x defaultComment = appendReplies (A.getD x defaultComment) b

theorem Ext_refl (A : List Comment) : Ext A A :=
  ⟨rfl, fun x => ⟨[], (appendReplies_nil _).symm⟩⟩

theorem Ext_trans {A B C : List Comment} (h1 : Ext A B) (h2 : Ext B C) : Ext A C := by
  refine ⟨h2.1.trans h1.1, fun x => ?_⟩
  obtain ⟨b1, hb1⟩ := h1.2 x
  obtain ⟨b2, hb2⟩ := h2.2 x
  exact ⟨b1 ++ b2, by rw [hb2, hb1, appendReplies_append]⟩

theorem Ext_set_append (A : List Comment) (j : Nat) (w : List Comment) :
    Ext A (A.set j (appendReplies (A.getD j defaultComment) w)) := by
  by_cases hj : j < A.length
  · refine ⟨List.length_set A j _, fun x => ?_⟩
    by_cases hx : x = j
    · subst hx
      exact ⟨w, getD_set_self A x _ hj⟩
    · exact ⟨[], by rw [getD_set_ne A j x _ hx, appendReplies_nil]⟩
  · rw [List.set_eq_of_length_le (by omega)]
    exact Ext_refl A

theorem dig_digChildren_ext (m : Int → List Nat) :
    ∀ f : Nat,
      (∀ j A A', dig m f j A = some A' → Ext A A') ∧
      (∀ vs j A A', digChildren m f vs j A = some A' → Ext A A') := by
  intro f
  induction f with
  | zero =>
    constructor
    · intro j A A' h; cases h
    · intro vs
      induction vs with
      | nil => intro j A A' h; cases h; exact Ext_refl A
      | cons v rest ih =>
        intro j A A' h
        rw [digChildren_cons] at h
        cases hd : dig m 0 v A with
        | none => rw [hd] at h; cases h
        | some A2 => cases hd
  | succ f ih =>
    have hdig : ∀ j A A', dig m (f + 1) j A = some A' → Ext A A' := by
      intro j A A' h
      rw [dig_succ] at h
      by_cases hc : m ((A.getD j defaultComment).id) = []
      · rw [if_pos hc] at h
        cases h
        exact Ext_refl A
      · rw [if_neg hc] at h
        exact ih.2 _ _ _ _ h
    refine ⟨hdig, ?_⟩
    intro vs
    induction vs with
    | nil => intro j A A' h; cases h; exact Ext_refl A
    | cons v rest ihvs =>
      intro j A A' h
      rw [digChildren_cons] at h
      cases hd : dig m (f + 1) v A with
      | none => rw [hd] at h; cases h
      | some A2 =>
        rw [hd] at h
        simp only [Option.some_bind] at h
        refine Ext_trans (Ext_trans (hdig v A A2 hd) (Ext_set_append A2 j _)) (ihvs _ _ _ h)

theorem dig_ext {m : Int → List Nat} {f j : Nat} {A A' : List Comment}
    (h : dig m f j A = some A') : Ext A A' := (dig_digChildren_ext m f).1 j A A' h

theorem digChildren_ext {m : Int → List Nat} {f : Nat} {vs : List Nat} {j : Nat}
    {A A' : List Comment} (h : digChildren m f vs j A = some A') : Ext A A' :=
  (dig_digChildren_ext m f).2 vs j A A' h

/-- Scalar fields are preserved along `Ext`. -/
theorem Ext_strip {A A' : List Comment} (h : Ext A A') (x : Nat) :
    stripReplies (A'.getD x defaultComment) = stripReplies (A.getD x defaultComment) := by
  obtain ⟨b, hb⟩ := h.2 x
  rw [hb, stripReplies_appendReplies]

theorem Ext_id {A A' : List Comment} (h : Ext A A') (x : Nat) :
    (A'.getD x defaultComment).id = (A.getD x defaultComment).id := by
  have := Ext_strip h x
  simpa [stripReplies] using congrArg Comment.id this

theorem Ext_replyId {A A' : List Comment} (h : Ext A A') (x : Nat) :
    (A'.getD x defaultComment).replyId = (A.getD x defaultComment).replyId := by
  have := Ext_strip h x
  simpa [stripReplies] using congrArg Comment.replyId this

end Gateway

namespace Gateway

/-- The edge relation `dig` follows: from a node to a child listed in the
live children map. -/
def DigEdge (cs : List Comment) (m : Int → List Nat) (a b : Nat) : Prop :=
  b ∈ m (key cs a)

/-- Ids of the slice agree with the input (true of every state `dig`
reaches, by `Ext`). -/
def IdsOk (cs A : List Comment) : Prop :=
  ∀ x, (A.getD x defaultComment).id = key cs x

theorem IdsOk_of_ext {cs A A' : List Comment} (h : IdsOk cs A) (he : Ext A A') :
    IdsOk cs A' := fun x => (Ext_id he x).trans (h x)

theorem IdsOk_refl (cs : List Comment) : IdsOk cs cs := fun _ => rfl

theorem digChildren_none_of_mem (cs : List Comment) (m : Int → List Nat) (f : Nat) (c : Nat)
    (hc : ∀ A'', IdsOk cs A'' → dig m f c A'' = none) :
    ∀ (vs : List Nat) (j : Nat) (A : List Comment), c ∈ vs → IdsOk cs A →
      digChildren m f vs j A = none := by
  intro vs
  induction vs with
  | nil => intro j A hmem; cases hmem
  | cons v rest ih =>
    intro j A hmem hA
    rw [digChildren_cons]
    by_cases hvc : v = c
    · subst hvc
      rw [hc A hA]
      rfl
    · cases hd : dig m f v A with
      | none => rfl
      | some A2 =>
        simp only [Option.some_bind]
        have hmem' : c ∈ rest := by
          cases hmem with
          | head => exact absurd rfl hvc
          | tail _ h => exact h
        refine ih j _ hmem' ?_
        exact IdsOk_of_ext hA (Ext_trans (dig_ext hd) (Ext_set_append A2 j _))

/-- On any children-map cycle, `dig` exhausts every fuel: the Go recursion
never terminates. -/
theorem dig_cycle_none (cs : List Comment) (m : Int → List Nat) :
    ∀ (f : Nat) (v : Nat) (A : List Comment),
      Relation.TransGen (DigEdge cs m) v v → IdsOk cs A → dig m f v A = none := by
  intro f
  induction f with
  | zero => intro v A _ _; rfl
  | succ f ih =>
    intro v A hcyc hA
    obtain ⟨c, hvc, hrest⟩ := (Relation.TransGen.head'_iff).mp hcyc
    have hccyc : Relation.TransGen (DigEdge cs m) c c := Relation.TransGen.tail' hrest hvc
    rw [dig_succ, hA v]
    rw [if_neg (fun hnil => by simp only [DigEdge, hnil] at hvc; cases hvc)]
    exact digChildren_none_of_mem cs m f c (fun A'' hA'' => ih c A'' hccyc hA'')
      (m (key cs v)) v A hvc hA

/-- If `digChildren` succeeded and `c` is among the dug children, `dig` on
`c` cannot fail for every state — contrapositive of a cycle through `c`. -/
theorem digChildren_some_no_cycle (cs : List Comment) (m : Int → List Nat) (f : Nat)
    {vs : List Nat} {j : Nat} {A A' : List Comment} {c : Nat}
    (h : digChildren m f vs j A = some A') (hmem : c ∈ vs) (hA : IdsOk cs A)
    (hcyc : Relation.TransGen (DigEdge cs m) c c) : False := by
  rw [digChildren_none_of_mem cs m f c
    (fun A'' hA'' => dig_cycle_none cs m f c A'' hcyc hA'') vs j A hmem hA] at h
  cases h

end Gateway

namespace Gateway

/-- Index `x` still holds its input value. -/
def Untouched (cs A : List Comment) (x : Nat) : Prop :=
  A.getD x defaultComment = cs.getD x defaultComment

/-- Index `x` holds the intended subtree value (children map `m0`). -/
def GoodAt (cs A : List Comment) (x : Nat) : Prop :=
  Good cs (m0 cs) x (A.getD x defaultComment)

/-- The unique parent index of `x` (the index whose id is `x`'s reply_id)
exists and is already filled. -/
def parentFilled (cs A : List Comment) (x : Nat) : Prop :=
  (cs.getD x defaultComment).replyId ≠ 0 ∧
    ∃ p, p < cs.length ∧ key cs p = (cs.getD x defaultComment).replyId ∧ ¬Untouched cs A p

/-- The state invariant during step `i` of the second loop, with `St` the
stack of dig targets currently being processed (nodes whose replies are
still being assembled): the slice extends the input; comments without
mapped children are untouched; processed comments with children are
filled; a filled comment whose own step is pending has a filled parent or
sits on the stack; and a filled comment that is not at its intended value
has a filled parent or sits on the stack. -/
def MidInv (cs : List Comment) (i : Nat) (A : List Comment) (St : List Nat) : Prop :=
  Ext cs A ∧
  (∀ x, m0 cs (key cs x) = [] → Untouched cs A x) ∧
  (∀ x, x < i → m0 cs (key cs x) ≠ [] → ¬Untouched cs A x) ∧
  (∀ x, i ≤ x → ¬Untouched cs A x → parentFilled cs A x ∨ x ∈ St) ∧
  (∀ x, ¬Untouched cs A x → ¬GoodAt cs A x → parentFilled cs A x ∨ x ∈ St)

/-- `St` is a chain of ancestors above `v` in the live children map. -/
def ChainUp (cs : List Comment) (m : Int → List Nat) : Nat → List Nat → Prop
  | _, [] => True
  | v, p :: rest => v ∈ m (key cs p) ∧ ChainUp cs m p rest

/-- Flatness of the input, in indexed form. -/
def FlatD (cs : List Comment) : Prop :=
  ∀ x, (cs.getD x defaultComment).replies = []

theorem FlatD_of_mem {cs : List Comment} (h : ∀ c ∈ cs, c.replies = []) : FlatD cs := by
  intro x
  by_cases hx : x < cs.length
  · rw [List.getD_eq_getElem cs defaultComment hx]
    exact h _ (List.getElem_mem hx)
  · rw [List.getD_eq_default _ _ (by omega)]
    rfl

theorem IdsOk_of_extcs {cs A : List Comment} (h : Ext cs A) : IdsOk cs A :=
  IdsOk_of_ext (IdsOk_refl cs) h

/-- Once filled, always filled (appending never restores the flat input
value). -/
theorem filled_mono {cs A A' : List Comment} (hflat : FlatD cs) (hcs : Ext cs A)
    (h : Ext A A') {x : Nat} (hf : ¬Untouched cs A x) : ¬Untouched cs A' x := by
  obtain ⟨b, hb⟩ := h.2 x
  cases b with
  | nil =>
    rw [appendReplies_nil] at hb
    intro hu
    exact hf (by rw [Untouched, ← hb]; exact hu)
  | cons c btl =>
    intro hu
    have h1 : (A'.getD x defaultComment).replies = [] := by
      rw [hu]; exact hflat x
    rw [hb] at h1
    simp [appendReplies] at h1

/-- A nonempty append to an entry of a state extending the flat input
leaves it filled. -/
theorem not_untouched_of_append {cs A A' : List Comment} (hflat : FlatD cs)
    {x : Nat} {b : List Comment}
    (hb : A'.getD x defaultComment = appendReplies (A.getD x defaultComment) b)
    (hne : b ≠ []) : ¬Untouched cs A' x := by
  intro hu
  have h1 : (A'.getD x defaultComment).replies = [] := by
    rw [hu]; exact hflat x
  rw [hb] at h1
  simp only [appendReplies, List.append_eq_nil] at h1
  exact hne h1.2

theorem parentFilled_mono {cs A A' : List Comment} (hflat : FlatD cs) (hcs : Ext cs A)
    (h : Ext A A') {x : Nat} (hp : parentFilled cs A x) : parentFilled cs A' x := by
  obtain ⟨h0, p, hpn, hpk, hpf⟩ := hp
  exact ⟨h0, p, hpn, hpk, filled_mono hflat hcs h hpf⟩

theorem goodAt_of_eq {cs A A' : List Comment} {x : Nat}
    (h : A'.getD x defaultComment = A.getD x defaultComment) (hg : GoodAt cs A x) :
    GoodAt cs A' x := by
  unfold GoodAt
  rw [h]
  exact hg

theorem untouched_of_eq {cs A A' : List Comment} {x : Nat}
    (h : A'.getD x defaultComment = A.getD x defaultComment) (hu : Untouched cs A x) :
    Untouched cs A' x := by
  unfold Untouched
  rw [h]
  exact hu

theorem MidInv_mono_stack {cs : List Comment} {i : Nat} {A : List Comment}
    {St St' : List Nat} (hsub : ∀ x ∈ St, x ∈ St') (h : MidInv cs i A St) :
    MidInv cs i A St' := by
  obtain ⟨h1, h2, h3, h4, h5⟩ := h
  refine ⟨h1, h2, h3, ?_, ?_⟩
  · intro x hx hf
    rcases h4 x hx hf with h' | h'
    · exact Or.inl h'
    · exact Or.inr (hsub x h')
  · intro x hf hg
    rcases h5 x hf hg with h' | h'
    · exact Or.inl h'
    · exact Or.inr (hsub x h')

/-- The one step lemma for maintaining `MidInv` across a state change:
every changed entry either has a filled parent afterwards or is on the
stack, and changed entries always own mapped children. -/
theorem MidInv_step {cs : List Comment} {i : Nat} {A A' : List Comment} {St : List Nat}
    (hflat : FlatD cs) (hinv : MidInv cs i A St) (hext : Ext A A')
    (hch : ∀ x, A'.getD x defaultComment ≠ A.getD x defaultComment →
      parentFilled cs A' x ∨ x ∈ St)
    (hch0 : ∀ x, A'.getD x defaultComment ≠ A.getD x defaultComment →
      m0 cs (key cs x) ≠ []) :
    MidInv cs i A' St := by
  obtain ⟨h1, h2, h3, h4, h5⟩ := hinv
  refine ⟨Ext_trans h1 hext, ?_, ?_, ?_, ?_⟩
  · intro x hm
    by_cases hc : A'.getD x defaultComment = A.getD x defaultComment
    · exact untouched_of_eq hc (h2 x hm)
    · exact absurd hm (hch0 x hc)
  · intro x hxi hm
    exact filled_mono hflat h1 hext (h3 x hxi hm)
  · intro x hxi hf
    by_cases hc : A'.getD x defaultComment = A.getD x defaultComment
    · have hfA : ¬Untouched cs A x := fun hu => hf (untouched_of_eq hc hu)
      rcases h4 x hxi hfA with h' | h'
      · exact Or.inl (parentFilled_mono hflat h1 hext h')
      · exact Or.inr h'
    · exact hch x hc
  · intro x hf hg
    by_cases hc : A'.getD x defaultComment = A.getD x defaultComment
    · have hfA : ¬Untouched cs A x := fun hu => hf (untouched_of_eq hc hu)
      have hgA : ¬GoodAt cs A x := fun hgood => hg (goodAt_of_eq hc hgood)
      rcases h5 x hfA hgA with h' | h'
      · exact Or.inl (parentFilled_mono hflat h1 hext h')
      · exact Or.inr h'
    · exact hch x hc

theorem mAt_ne_nil_eq {cs : List Comment} {i : Nat} {k : Int} (h : mAt cs i k ≠ []) :
    mAt cs i k = m0 cs k := by
  rcases mAt_sub cs i k with h' | h'
  · exact absurd h' h
  · exact h'

theorem m0_ne_nil_of_mAt {cs : List Comment} {i : Nat} {k : Int} (h : mAt cs i k ≠ []) :
    m0 cs k ≠ [] := by
  rw [← mAt_ne_nil_eq h]; exact h

/-- An index whose map entry is live has not been processed yet. -/
theorem mAt_ne_nil_ge {cs : List Comment} {i : Nat} {w : Nat}
    (h : mAt cs i (key cs w) ≠ []) : i ≤ w := by
  by_contra hlt
  refine h ?_
  unfold mAt
  rw [if_pos]
  simp only [List.any_eq_true, List.mem_range]
  exact ⟨w, by omega, by simp⟩

/-- A cleared nonempty entry belongs to a processed owner. -/
theorem mAt_nil_lt {cs : List Comment} (hnd : (cs.map Comment.id).Nodup) {i : Nat} {w : Nat}
    (hw : w < cs.length) (hm0 : m0 cs (key cs w) ≠ []) (h : mAt cs i (key cs w) = []) :
    w < i := by
  by_contra hge
  have := mAt_uncleared cs i (key cs w) ?_
  · rw [this] at h; exact hm0 h
  · intro j hj hkey
    have hjn : j < cs.length := by
      by_contra hjn
      have : key cs j = 0 := by
        unfold key
        rw [List.getD_eq_default _ _ (by omega)]
        rfl
      rw [this] at hkey
      rw [← hkey] at hm0
      exact hm0 (m0_zero cs)
    have := key_inj hnd hjn hw hkey
    omega

theorem mem_m0_bound {cs : List Comment} {k : Int} {j : Nat} (h : j ∈ m0 cs k) :
    j < cs.length := ((m0_mem cs k j).mp h).2.1

theorem mem_m0_replyId {cs : List Comment} {k : Int} {j : Nat} (h : j ∈ m0 cs k) :
    (cs.getD j defaultComment).replyId = k ∧ k ≠ 0 := by
  have := (m0_mem cs k j).mp h
  exact ⟨this.2.2, this.1⟩

/-- Parent uniqueness: a mapped child of `j` has `j` as its only possible
filled parent. -/
theorem parent_unique {cs : List Comment} (hnd : (cs.map Comment.id).Nodup)
    {j w p : Nat} (hj : j < cs.length) (hw : w ∈ m0 cs (key cs j))
    (hp : p < cs.length) (hpk : key cs p = (cs.getD w defaultComment).replyId) : p = j := by
  have h1 := (mem_m0_replyId hw).1
  rw [h1] at hpk
  exact key_inj hnd hp hj hpk

end Gateway

namespace Gateway

/-- Entry `x` differs between two states. -/
def changedAt (A A' : List Comment) (x : Nat) : Prop :=
  A'.getD x defaultComment ≠ A.getD x defaultComment

/-- Pre-state condition on a children list about to be dug under an
untouched parent: every child is untouched, or already holds its intended
value with its own map entry cleared. -/
def CArg (cs : List Comment) (i : Nat) (A : List Comment) (vs : List Nat) : Prop :=
  ∀ v ∈ vs, Untouched cs A v ∨ (GoodAt cs A v ∧ mAt cs i (key cs v) = [])

/-- Postcondition of `dig` at `v` (stack `St` above `v`). -/
def DigPost (cs : List Comment) (i : Nat) (v : Nat) (St : List Nat)
    (A A' : List Comment) : Prop :=
  MidInv cs i A' (v :: St) ∧
  (∀ x, changedAt A A' x → x = v ∨ parentFilled cs A' x) ∧
  (∀ x, changedAt A A' x → Relation.ReflTransGen (DigEdge cs (mAt cs i)) v x) ∧
  (∀ x, changedAt A A' x → m0 cs (key cs x) ≠ []) ∧
  (mAt cs i (key cs v) = [] → A' = A) ∧
  (mAt cs i (key cs v) ≠ [] → ¬Untouched cs A' v) ∧
  (mAt cs i (key cs v) ≠ [] → Untouched cs A v → GoodAt cs A' v)

/-- Postcondition of `digChildren` on suffix `vs` of the children of `j`. -/
def DigCPost (cs : List Comment) (i : Nat) (vs : List Nat) (j : Nat) (St : List Nat)
    (A A' : List Comment) : Prop :=
  MidInv cs i A' (j :: St) ∧
  (∀ x, changedAt A A' x → x = j ∨ parentFilled cs A' x) ∧
  (∀ x, changedAt A A' x → x ≠ j →
    ∃ v ∈ vs, Relation.ReflTransGen (DigEdge cs (mAt cs i)) v x) ∧
  (∀ x, changedAt A A' x → m0 cs (key cs x) ≠ []) ∧
  (∃ ws, ws.length = vs.length ∧
    A'.getD j defaultComment = appendReplies (A.getD j defaultComment) ws ∧
    (CArg cs i A vs → List.Forall₂ (fun v w => Good cs (m0 cs) v w) vs ws))

theorem chain_tg {cs : List Comment} {m : Int → List Nat} :
    ∀ {St : List Nat} {v : Nat}, ChainUp cs m v St →
      ∀ w ∈ St, Relation.TransGen (DigEdge cs m) w v := by
  intro St
  induction St with
  | nil => intro v _ w hw; cases hw
  | cons p rest ih =>
    intro v hch w hw
    obtain ⟨hvp, hrest⟩ := hch
    cases hw with
    | head => exact Relation.TransGen.single hvp
    | tail _ hw' => exact Relation.TransGen.tail (ih hrest w hw') hvp

theorem digedge_bound {cs : List Comment} {i : Nat} {a b : Nat}
    (h : DigEdge cs (mAt cs i) a b) : b < cs.length :=
  mem_m0_bound (mem_mAt h)

theorem rtg_bound {cs : List Comment} {i : Nat} {a b : Nat} (ha : a < cs.length)
    (h : Relation.ReflTransGen (DigEdge cs (mAt cs i)) a b) : b < cs.length := by
  induction h with
  | refl => exact ha
  | tail _ he _ => exact digedge_bound he

theorem parentFilled_of_child {cs : List Comment} {j w : Nat} (hj : j < cs.length)
    (hw : w ∈ m0 cs (key cs j)) {A : List Comment} (hfj : ¬Untouched cs A j) :
    parentFilled cs A w := by
  obtain ⟨hrep, hk0⟩ := mem_m0_replyId hw
  exact ⟨by rw [hrep]; exact hk0, j, hj, hrep.symm, hfj⟩

end Gateway

namespace Gateway

theorem mAt_nodup (cs : List Comment) (i : Nat) (k : Int) : (mAt cs i k).Nodup := by
  rcases mAt_sub cs i k with h | h
  · rw [h]; exact List.nodup_nil
  · rw [h]; exact m0_nodup cs k

/-- Popping the top of the stack once its exception is discharged. -/
theorem MidInv_drop {cs : List Comment} {i : Nat} {A : List Comment} {x : Nat}
    {St : List Nat} (h : MidInv cs i A (x :: St))
    (hx : ¬Untouched cs A x → parentFilled cs A x ∨ x ∈ St) : MidInv cs i A St := by
  obtain ⟨h1, h2, h3, h4, h5⟩ := h
  refine ⟨h1, h2, h3, ?_, ?_⟩
  · intro y hy hf
    rcases h4 y hy hf with h' | h'
    · exact Or.inl h'
    · rcases List.mem_cons.mp h' with rfl | h''
      · exact hx hf
      · exact Or.inr h''
  · intro y hf hg
    rcases h5 y hf hg with h' | h'
    · exact Or.inl h'
    · rcases List.mem_cons.mp h' with rfl | h''
      · exact hx hf
      · exact Or.inr h''

theorem digCPost_nil {cs : List Comment} {i j : Nat} {St : List Nat} {A : List Comment}
    (hinv : MidInv cs i A (j :: St)) : DigCPost cs i [] j St A A :=
  ⟨hinv, fun _ hx => absurd rfl hx, fun _ hx => absurd rfl hx, fun _ hx => absurd rfl hx,
    [], rfl, (appendReplies_nil _).symm, fun _ => List.Forall₂.nil⟩

theorem digPost_nil {cs : List Comment} {i v : Nat} {St : List Nat} {A : List Comment}
    (hinv : MidInv cs i A (v :: St)) (hm : mAt cs i (key cs v) = []) :
    DigPost cs i v St A A :=
  ⟨hinv, fun _ hx => absurd rfl hx, fun _ hx => absurd rfl hx, fun _ hx => absurd rfl hx,
    fun _ => rfl, fun hne => absurd hm hne, fun hne _ => absurd hm hne⟩

/-- The heart of the correctness proof: mutual fuel induction on `dig` and
`digChildren` under the mid-step invariant `MidInv` with an ancestor chain
`ChainUp`.  Successful runs preserve the invariant, only change nodes in
the dig footprint (which then have a filled parent or are the target),
and, when run on an untouched node with well-prepared children, fill the
target with its intended subtree value. -/
theorem dig_main {cs : List Comment} (hnd : (cs.map Comment.id).Nodup)
    (hflat : FlatD cs) (i : Nat) : ∀ f : Nat,
    (∀ (v : Nat) (St : List Nat) (A A' : List Comment), v < cs.length →
      MidInv cs i A (v :: St) → ChainUp cs (mAt cs i) v St →
      dig (mAt cs i) f v A = some A' → DigPost cs i v St A A') ∧
    (∀ (vs : List Nat) (j : Nat) (St : List Nat) (A A' : List Comment), j < cs.length →
      (∀ w ∈ vs, w ∈ mAt cs i (key cs j)) → vs.Nodup →
      MidInv cs i A (j :: St) → ChainUp cs (mAt cs i) j St →
      digChildren (mAt cs i) f vs j A = some A' → DigCPost cs i vs j St A A') := by
  intro f
  induction f with
  | zero =>
    constructor
    · intro v St A A' _ _ _ hdig
      cases hdig
    · intro vs
      cases vs with
      | nil =>
        intro j St A A' _ _ _ hinv _ hdc
        rw [digChildren_nil] at hdc
        cases hdc
        exact digCPost_nil hinv
      | cons v1 rest =>
        intro j St A A' _ _ _ _ _ hdc
        rw [digChildren_cons] at hdc
        rw [show dig (mAt cs i) 0 v1 A = none from rfl] at hdc
        cases hdc
  | succ f ih =>
    have hP : ∀ (v : Nat) (St : List Nat) (A A' : List Comment), v < cs.length →
        MidInv cs i A (v :: St) → ChainUp cs (mAt cs i) v St →
        dig (mAt cs i) (f + 1) v A = some A' → DigPost cs i v St A A' := by
      intro v St A A' hv hinv hchain hdig
      rw [dig_succ] at hdig
      have hid : (A.getD v defaultComment).id = key cs v := IdsOk_of_extcs hinv.1 v
      rw [hid] at hdig
      by_cases hm : mAt cs i (key cs v) = []
      · rw [if_pos hm] at hdig
        cases hdig
        exact digPost_nil hinv hm
      · rw [if_neg hm] at hdig
        have hQC := ih.2 (mAt cs i (key cs v)) v St A A' hv (fun _ hw => hw)
          (mAt_nodup cs i _) hinv hchain hdig
        obtain ⟨hQ1, hQ2, hQ3, hQ4, ws, hlen, hwsv, hgood⟩ := hQC
        have hwsne : ws ≠ [] := by
          intro h
          rw [h] at hlen
          exact hm (List.eq_nil_of_length_eq_zero hlen.symm)
        refine ⟨hQ1, hQ2, ?_, hQ4, fun h => absurd h hm, ?_, ?_⟩
        · intro x hx
          by_cases hxv : x = v
          · subst hxv
            exact Relation.ReflTransGen.refl
          · obtain ⟨c, hc, hrtg⟩ := hQ3 x hx hxv
            exact Relation.ReflTransGen.head (show DigEdge cs (mAt cs i) v c from hc) hrtg
        · intro _
          exact not_untouched_of_append hflat hwsv hwsne
        · intro _ hU
          have hCArg : CArg cs i A (mAt cs i (key cs v)) := by
            intro w hw
            have hw0 : w ∈ m0 cs (key cs v) := mem_mAt hw
            have hstack : w ∉ v :: St := by
              intro hmem
              rcases List.mem_cons.mp hmem with rfl | hwSt
              · exact digChildren_some_no_cycle cs (mAt cs i) f hdig hw
                  (IdsOk_of_extcs hinv.1)
                  (Relation.TransGen.single (show DigEdge cs (mAt cs i) w w from hw))
              · have htg := chain_tg hchain w hwSt
                have hcyc := Relation.TransGen.tail htg
                  (show DigEdge cs (mAt cs i) v w from hw)
                exact digChildren_some_no_cycle cs (mAt cs i) f hdig hw
                  (IdsOk_of_extcs hinv.1) hcyc
            by_cases hUw : Untouched cs A w
            · exact Or.inl hUw
            · by_cases hmw : mAt cs i (key cs w) = []
              · by_cases hGw : GoodAt cs A w
                · exact Or.inr ⟨hGw, hmw⟩
                · exfalso
                  rcases hinv.2.2.2.2 w hUw hGw with hpF | hSt
                  · obtain ⟨h0, p, hpn, hpk, hpf⟩ := hpF
                    rw [parent_unique hnd hv hw0 hpn hpk] at hpf
                    exact hpf hU
                  · exact hstack hSt
              · exfalso
                have hiw : i ≤ w := mAt_ne_nil_ge hmw
                rcases hinv.2.2.2.1 w hiw hUw with hpF | hSt
                · obtain ⟨h0, p, hpn, hpk, hpf⟩ := hpF
                  rw [parent_unique hnd hv hw0 hpn hpk] at hpf
                  exact hpf hU
                · exact hstack hSt
          have hF := hgood hCArg
          show Good cs (m0 cs) v (A'.getD v defaultComment)
          rw [Good_iff]
          refine ⟨ws, ?_, ?_⟩
          · rw [← mAt_ne_nil_eq hm]
            exact hF
          · have hU' : A.getD v defaultComment = cs.getD v defaultComment := hU
            rw [hwsv, hU']
    refine ⟨hP, ?_⟩
    intro vs
    induction vs with
    | nil =>
      intro j St A A' _ _ _ hinv _ hdc
      rw [digChildren_nil] at hdc
      cases hdc
      exact digCPost_nil hinv
    | cons v1 rest ihrest =>
      intro j St A A' hj hsub hnodup hinv hchain hdc0
      have hdc := hdc0
      rw [digChildren_cons] at hdc
      cases hd : dig (mAt cs i) (f + 1) v1 A with
      | none => rw [hd] at hdc; cases hdc
      | some A2 =>
        rw [hd] at hdc
        simp only [Option.some_bind] at hdc
        have hrec : ({ A2.getD j defaultComment with
            replies := (A2.getD j defaultComment).replies ++ [A2.getD v1 defaultComment] }
            : Comment) =
            appendReplies (A2.getD j defaultComment) [A2.getD v1 defaultComment] := rfl
        rw [hrec] at hdc
        obtain ⟨A3, hA3def⟩ : ∃ A3, A3 = A2.set j
            (appendReplies (A2.getD j defaultComment) [A2.getD v1 defaultComment]) :=
          ⟨_, rfl⟩
        rw [← hA3def] at hdc
        have hv1m : v1 ∈ mAt cs i (key cs j) := hsub v1 (List.mem_cons_self v1 rest)
        have hv1m0 : v1 ∈ m0 cs (key cs j) := mem_mAt hv1m
        have hv1n : v1 < cs.length := mem_m0_bound hv1m0
        have hExtA : Ext cs A := hinv.1
        have hIds : IdsOk cs A := IdsOk_of_extcs hExtA
        have hnocyc : ¬ Relation.TransGen (DigEdge cs (mAt cs i)) v1 v1 := fun hcyc =>
          digChildren_some_no_cycle cs (mAt cs i) (f + 1) hdc0
            (List.mem_cons_self v1 rest) hIds hcyc
        have hinv1 : MidInv cs i A (v1 :: j :: St) :=
          MidInv_mono_stack (fun x hx => List.mem_cons_of_mem v1 hx) hinv
        have hch1 : ChainUp cs (mAt cs i) v1 (j :: St) := ⟨hv1m, hchain⟩
        have hPd := hP v1 (j :: St) A A2 hv1n hinv1 hch1 hd
        obtain ⟨hInv2, hCh2, hFoot2, hM02, hNil2, hFill2, hGood2⟩ := hPd
        have hExtA2 : Ext cs A2 := hInv2.1
        have hExt12 : Ext A A2 := dig_ext hd
        have hlenA2 : j < A2.length := by
          have h1 : A2.length = cs.length := hExtA2.1
          omega
        have hA2j : A2.getD j defaultComment = A.getD j defaultComment := by
          by_contra hne
          have hrtg := hFoot2 j hne
          exact hnocyc (Relation.TransGen.tail' hrtg
            (show DigEdge cs (mAt cs i) j v1 from hv1m))
        have hA3j : A3.getD j defaultComment =
            appendReplies (A.getD j defaultComment) [A2.getD v1 defaultComment] := by
          rw [hA3def, getD_set_self A2 j _ hlenA2, hA2j]
        have hA3x : ∀ x, x ≠ j →
            A3.getD x defaultComment = A2.getD x defaultComment := by
          intro x hx
          rw [hA3def]
          exact getD_set_ne A2 j x _ hx
        have hExt23 : Ext A2 A3 := by
          rw [hA3def]
          exact Ext_set_append A2 j _
        have hExtA3 : Ext cs A3 := Ext_trans hExtA2 hExt23
        have hfj3 : ¬Untouched cs A3 j :=
          not_untouched_of_append hflat hA3j (by simp)
        have hm0j : m0 cs (key cs j) ≠ [] := List.ne_nil_of_mem hv1m0
        have hpf3 : parentFilled cs A3 v1 := parentFilled_of_child hj hv1m0 hfj3
        have hInv3s : MidInv cs i A3 (v1 :: j :: St) := by
          refine MidInv_step hflat hInv2 hExt23 ?_ ?_
          · intro x hx
            have hxj : x = j := by
              by_contra hxj
              exact hx (hA3x x hxj)
            subst hxj
            exact Or.inr (List.mem_cons_of_mem v1 (List.mem_cons_self x St))
          · intro x hx
            have hxj : x = j := by
              by_contra hxj
              exact hx (hA3x x hxj)
            subst hxj
            exact hm0j
        have hInv3 : MidInv cs i A3 (j :: St) :=
          MidInv_drop hInv3s (fun _ => Or.inl hpf3)
        have hv1nr : v1 ∉ rest := (List.nodup_cons.mp hnodup).1
        have hQr := ihrest j St A3 A' hj (fun w hw => hsub w (List.mem_cons_of_mem v1 hw))
          (List.Nodup.of_cons hnodup) hInv3 hchain hdc
        obtain ⟨hInvF, hChF, hFootF, hM0F, ws', hlen', hwsj', hgood'⟩ := hQr
        have hExt3F : Ext A3 A' := digChildren_ext hdc
        have hExt2F : Ext A2 A' := Ext_trans hExt23 hExt3F
        have hsplit : ∀ x, changedAt A A' x →
            changedAt A3 A' x ∨ x = j ∨ changedAt A A2 x := by
          intro x hx
          by_cases h1 : A'.getD x defaultComment = A3.getD x defaultComment
          · by_cases hxj : x = j
            · exact Or.inr (Or.inl hxj)
            · by_cases h3 : A2.getD x defaultComment = A.getD x defaultComment
              · exact absurd (h1.trans ((hA3x x hxj).trans h3)) hx
              · exact Or.inr (Or.inr h3)
          · exact Or.inl h1
        refine ⟨hInvF, ?_, ?_, ?_, A2.getD v1 defaultComment :: ws', ?_, ?_, ?_⟩
        · intro x hx
          rcases hsplit x hx with h | h | h
          · exact hChF x h
          · exact Or.inl h
          · rcases hCh2 x h with rfl | hpf
            · exact Or.inr (parentFilled_mono hflat hExtA3 hExt3F hpf3)
            · exact Or.inr (parentFilled_mono hflat hExtA2 hExt2F hpf)
        · intro x hx hxj
          rcases hsplit x hx with h | h | h
          · obtain ⟨w, hw, hrtg⟩ := hFootF x h hxj
            exact ⟨w, List.mem_cons_of_mem v1 hw, hrtg⟩
          · exact absurd h hxj
          · exact ⟨v1, List.mem_cons_self v1 rest, hFoot2 x h⟩
        · intro x hx
          rcases hsplit x hx with h | h | h
          · exact hM0F x h
          · subst h
            exact hm0j
          · exact hM02 x h
        · simp [hlen']
        · rw [hwsj', hA3j, appendReplies_append]
          rfl
        · intro hCA
          refine List.Forall₂.cons ?_ ?_
          · rcases hCA v1 (List.mem_cons_self v1 rest) with hU1 | ⟨hG1, hm1⟩
            · by_cases hm1 : mAt cs i (key cs v1) = []
              · have hA2eq : A2 = A := hNil2 hm1
                have hm0v1 : m0 cs (key cs v1) = [] := by
                  by_contra hm0ne
                  exact hinv.2.2.1 v1 (mAt_nil_lt hnd hv1n hm0ne hm1) hm0ne hU1
                have hU1' : A.getD v1 defaultComment = cs.getD v1 defaultComment := hU1
                rw [hA2eq, hU1']
                rw [show Good cs (m0 cs) v1 (cs.getD v1 defaultComment) =
                  Good cs (m0 cs) v1 (cs.getD v1 defaultComment) from rfl, Good_iff]
                refine ⟨[], ?_, (appendReplies_nil _).symm⟩
                rw [hm0v1]
                exact List.Forall₂.nil
              · exact hGood2 hm1 hU1
            · have hA2eq : A2 = A := hNil2 hm1
              rw [hA2eq]
              exact hG1
          · refine hgood' ?_
            intro w hwr
            have hwvs : w ∈ v1 :: rest := List.mem_cons_of_mem v1 hwr
            have hwm : w ∈ mAt cs i (key cs j) := hsub w hwvs
            have hwm0 : w ∈ m0 cs (key cs j) := mem_mAt hwm
            have hwj : w ≠ j := by
              intro heq
              subst heq
              exact digChildren_some_no_cycle cs (mAt cs i) (f + 1) hdc0 hwvs hIds
                (Relation.TransGen.single (show DigEdge cs (mAt cs i) w w from hwm))
            have hwv1 : w ≠ v1 := fun h => hv1nr (h ▸ hwr)
            have hA3w : A3.getD w defaultComment = A.getD w defaultComment := by
              rw [hA3x w hwj]
              by_contra hne
              have hrtg := hFoot2 w hne
              rcases Relation.ReflTransGen.cases_tail hrtg with heq | ⟨b, hvb, hbw⟩
              · exact hwv1 heq
              · have hbm0 : w ∈ m0 cs (key cs b) := mem_mAt hbw
                have hbn : b < cs.length := rtg_bound hv1n hvb
                have hbj : b = j :=
                  parent_unique hnd hj hwm0 hbn (mem_m0_replyId hbm0).1.symm
                subst hbj
                exact hnocyc (Relation.TransGen.tail' hvb
                  (show DigEdge cs (mAt cs i) b v1 from hv1m))
            rcases hCA w hwvs with hUw | ⟨hGw, hmw⟩
            · exact Or.inl (untouched_of_eq hA3w hUw)
            · exact Or.inr ⟨goodAt_of_eq hA3w hGw, hmw⟩

end Gateway

namespace Gateway

theorem toTreeLoop_nil (m : Int → List Nat) (f : Nat) (A : List Comment) :
    toTreeLoop m f [] A = some (m, A) := rfl

theorem toTreeLoop_cons_skip (m : Int → List Nat) (f i : Nat) (rest : List Nat)
    (A : List Comment) (h : m (A.getD i defaultComment).id = []) :
    toTreeLoop m f (i :: rest) A = toTreeLoop m f rest A := by
  show (if m (A.getD i defaultComment).id = [] then toTreeLoop m f rest A
    else match digChildren m f (m (A.getD i defaultComment).id) i A with
      | none => none
      | some A2 => toTreeLoop (updateMap m (A.getD i defaultComment).id []) f rest A2) =
    toTreeLoop m f rest A
  rw [if_pos h]

theorem toTreeLoop_cons_none {m : Int → List Nat} {f i : Nat} {rest : List Nat}
    {A : List Comment} (h : m (A.getD i defaultComment).id ≠ [])
    (hdc : digChildren m f (m (A.getD i defaultComment).id) i A = none) :
    toTreeLoop m f (i :: rest) A = none := by
  show (if m (A.getD i defaultComment).id = [] then toTreeLoop m f rest A
    else match digChildren m f (m (A.getD i defaultComment).id) i A with
      | none => none
      | some A2 => toTreeLoop (updateMap m (A.getD i defaultComment).id []) f rest A2) =
    none
  rw [if_neg h, hdc]

theorem toTreeLoop_cons_dig {m : Int → List Nat} {f i : Nat} {rest : List Nat}
    {A A2 : List Comment} (h : m (A.getD i defaultComment).id ≠ [])
    (hdc : digChildren m f (m (A.getD i defaultComment).id) i A = some A2) :
    toTreeLoop m f (i :: rest) A =
      toTreeLoop (updateMap m (A.getD i defaultComment).id []) f rest A2 := by
  show (if m (A.getD i defaultComment).id = [] then toTreeLoop m f rest A
    else match digChildren m f (m (A.getD i defaultComment).id) i A with
      | none => none
      | some A2 => toTreeLoop (updateMap m (A.getD i defaultComment).id []) f rest A2) =
    toTreeLoop (updateMap m (A.getD i defaultComment).id []) f rest A2
  rw [if_neg h, hdc]

theorem mAt_lt_nil {cs : List Comment} {i w : Nat} (h : w < i) :
    mAt cs i (key cs w) = [] := by
  unfold mAt
  rw [if_pos]
  simp only [List.any_eq_true, List.mem_range]
  exact ⟨w, h, by simp⟩

/-- A skipped loop step does not change the live map. -/
theorem mAt_skip {cs : List Comment} {i : Nat} (hm : mAt cs i (key cs i) = []) :
    mAt cs i = mAt cs (i + 1) := by
  rw [← mAt_succ]
  funext k
  unfold updateMap
  by_cases hk : k = key cs i
  · rw [if_pos hk, hk, hm]
  · rw [if_neg hk]

theorem MidInv_boundary_skip {cs : List Comment} (hnd : (cs.map Comment.id).Nodup)
    {i : Nat} {A : List Comment} (hi : i < cs.length) (hinv : MidInv cs i A [])
    (hm : mAt cs i (key cs i) = []) : MidInv cs (i + 1) A [] := by
  obtain ⟨h1, h2, h3, h4, h5⟩ := hinv
  refine ⟨h1, h2, ?_, ?_, h5⟩
  · intro x hx hm0
    rcases Nat.lt_succ_iff_lt_or_eq.mp hx with h' | rfl
    · exact h3 x h' hm0
    · have := mAt_nil_lt hnd hi hm0 hm
      omega
  · intro x hx hf
    exact h4 x (by omega) hf

theorem MidInv_boundary_dig {cs : List Comment} (hnd : (cs.map Comment.id).Nodup)
    (hflat : FlatD cs) {f i : Nat} {A A2 : List Comment} (hi : i < cs.length)
    (hinv : MidInv cs i A []) (hm : mAt cs i (key cs i) ≠ [])
    (hdc : digChildren (mAt cs i) f (mAt cs i (key cs i)) i A = some A2) :
    MidInv cs (i + 1) A2 [] := by
  have hExtA : Ext cs A := hinv.1
  have hQC := (dig_main hnd hflat i f).2 (mAt cs i (key cs i)) i [] A A2 hi
    (fun _ hw => hw) (mAt_nodup cs i _)
    (MidInv_mono_stack (fun x hx => absurd hx (List.not_mem_nil x)) hinv)
    (show ChainUp cs (mAt cs i) i [] from trivial) hdc
  obtain ⟨hInv2, hCh2, hF2, hM2, ws, hlen, hwsj, hgood⟩ := hQC
  obtain ⟨E2, W2₂, W3₂, V4₂, V5₂⟩ := hInv2
  have hwsne : ws ≠ [] := by
    intro h
    rw [h] at hlen
    exact hm (List.eq_nil_of_length_eq_zero hlen.symm)
  have hfill2 : ¬Untouched cs A2 i := not_untouched_of_append hflat hwsj hwsne
  have hExtAA2 : Ext A A2 := digChildren_ext hdc
  refine ⟨E2, W2₂, ?_, ?_, ?_⟩
  · intro x hx hm0
    rcases Nat.lt_succ_iff_lt_or_eq.mp hx with h' | rfl
    · exact W3₂ x h' hm0
    · exact hfill2
  · intro x hx hf
    rcases V4₂ x (by omega) hf with h' | h'
    · exact Or.inl h'
    · have := List.mem_singleton.mp h'
      omega
  · intro x hf hg
    rcases V5₂ x hf hg with h' | h'
    · exact Or.inl h'
    · have hxi : x = i := List.mem_singleton.mp h'
      subst hxi
      by_cases hU : Untouched cs A x
      · exfalso
        have hCArg : CArg cs x A (mAt cs x (key cs x)) := by
          intro w hw
          have hw0 : w ∈ m0 cs (key cs x) := mem_mAt hw
          by_cases hUw : Untouched cs A w
          · exact Or.inl hUw
          · have hGw : GoodAt cs A w := by
              by_contra hGw
              rcases hinv.2.2.2.2 w hUw hGw with hpf | hmem
              · obtain ⟨h0, p, hpn, hpk, hpf'⟩ := hpf
                rw [parent_unique hnd hi hw0 hpn hpk] at hpf'
                exact hpf' hU
              · cases hmem
            refine Or.inr ⟨hGw, ?_⟩
            by_cases hwi : w < x
            · exact mAt_lt_nil hwi
            · exfalso
              rcases hinv.2.2.2.1 w (by omega) hUw with hpf | hmem
              · obtain ⟨h0, p, hpn, hpk, hpf'⟩ := hpf
                rw [parent_unique hnd hi hw0 hpn hpk] at hpf'
                exact hpf' hU
              · cases hmem
        have hF := hgood hCArg
        refine hg ?_
        show Good cs (m0 cs) x (A2.getD x defaultComment)
        rw [Good_iff]
        refine ⟨ws, ?_, ?_⟩
        · rw [← mAt_ne_nil_eq hm]
          exact hF
        · rw [hwsj, show A.getD x defaultComment = cs.getD x defaultComment from hU]
      · rcases hinv.2.2.2.1 x (le_refl x) hU with hpf | hmem
        · exact Or.inl (parentFilled_mono hflat hExtA hExtAA2 hpf)
        · cases hmem

theorem toTreeLoop_main {cs : List Comment} (hnd : (cs.map Comment.id).Nodup)
    (hflat : FlatD cs) (f : Nat) :
    ∀ (k i : Nat) (A : List Comment) (m' : Int → List Nat) (A' : List Comment),
      i + k = cs.length → MidInv cs i A [] →
      toTreeLoop (mAt cs i) f (List.range' i k) A = some (m', A') →
      MidInv cs cs.length A' [] := by
  intro k
  induction k with
  | zero =>
    intro i A m' A' hik hinv h
    rw [show List.range' i 0 = [] from rfl, toTreeLoop_nil] at h
    cases h
    have hieq : i = cs.length := by omega
    subst hieq
    exact hinv
  | succ k ihk =>
    intro i A m' A' hik hinv h
    have hi : i < cs.length := by omega
    rw [List.range'_succ] at h
    have hid : (A.getD i defaultComment).id = key cs i := IdsOk_of_extcs hinv.1 i
    by_cases hm : mAt cs i (key cs i) = []
    · rw [toTreeLoop_cons_skip _ _ _ _ _ (by rw [hid]; exact hm)] at h
      rw [mAt_skip hm] at h
      exact ihk (i + 1) A m' A' (by omega) (MidInv_boundary_skip hnd hi hinv hm) h
    · cases hdc : digChildren (mAt cs i) f (mAt cs i (key cs i)) i A with
      | none =>
        rw [toTreeLoop_cons_none (by rw [hid]; exact hm) (by rw [hid]; exact hdc)] at h
        cases h
      | some A2 =>
        rw [toTreeLoop_cons_dig (by rw [hid]; exact hm) (by rw [hid]; exact hdc)] at h
        rw [hid, mAt_succ] at h
        exact ihk (i + 1) A2 m' A' (by omega)
          (MidInv_boundary_dig hnd hflat hi hinv hm hdc) h

theorem MidInv_init (cs : List Comment) : MidInv cs 0 cs [] :=
  ⟨Ext_refl cs, fun _ _ => rfl, fun x hx => absurd hx (Nat.not_lt_zero x),
    fun _ _ hf => absurd rfl hf, fun _ hf => absurd rfl hf⟩

/-- A successful `ToTree` run ends in a state satisfying the invariant at
the final boundary; the output is the root filter of that state. -/
theorem ToTree_some_inv {cs : List Comment} (hnd : (cs.map Comment.id).Nodup)
    (hflat : FlatD cs) {f : Nat} {out : List Comment} (h : ToTree f cs = some out) :
    ∃ A', MidInv cs cs.length A' [] ∧
      out = A'.filter (fun c => c.replyId == 0) := by
  rw [show ToTree f cs =
    (match toTreeLoop (m0 cs) f (List.range cs.length) cs with
      | none => none
      | some (_, A) => some (A.filter (fun c => c.replyId == 0))) from rfl] at h
  cases hl : toTreeLoop (m0 cs) f (List.range cs.length) cs with
  | none => rw [hl] at h; cases h
  | some p =>
    obtain ⟨m', A'⟩ := p
    rw [hl] at h
    refine ⟨A', ?_, (Option.some.inj h).symm⟩
    have hl' : toTreeLoop (mAt cs 0) f (List.range' 0 cs.length) cs = some (m', A') := by
      rw [mAt_zero, ← List.range_eq_range']
      exact hl
    exact toTreeLoop_main hnd hflat f cs.length 0 cs m' A' (by omega) (MidInv_init cs) hl'

end Gateway

namespace Gateway

theorem forall₂_mem_left {R : Nat → Comment → Prop} :
    ∀ {l₁ : List Nat} {l₂ : List Comment}, List.Forall₂ R l₁ l₂ →
      ∀ {a}, a ∈ l₁ → ∃ b ∈ l₂, R a b := by
  intro l₁ l₂ h
  induction h with
  | nil => intro a ha; cases ha
  | cons hR htail ih =>
    intro a ha
    rcases List.mem_cons.mp ha with rfl | ha'
    · exact ⟨_, List.mem_cons_self _ _, hR⟩
    · obtain ⟨b, hb, hab⟩ := ih ha'
      exact ⟨b, List.mem_cons_of_mem _ hb, hab⟩

theorem forestIds_nil : forestIds [] = [] := by simp [forestIds]

theorem forestIds_cons (c : Comment) (l : List Comment) :
    forestIds (c :: l) = c.id :: (forestIds c.replies ++ forestIds l) := by
  simp [forestIds]

theorem forestIds_append : ∀ (l₁ l₂ : List Comment),
    forestIds (l₁ ++ l₂) = forestIds l₁ ++ forestIds l₂ := by
  intro l₁
  induction l₁ with
  | nil => intro l₂; rw [forestIds_nil, List.nil_append, List.nil_append]
  | cons c t ih =>
    intro l₂
    rw [List.cons_append, forestIds_cons, forestIds_cons, ih, List.cons_append,
      List.append_assoc]

theorem forestIds_split (t : Comment) (l : List Comment) :
    forestIds (t :: l) = forestIds [t] ++ forestIds l := by
  rw [show t :: l = [t] ++ l from rfl, forestIds_append]

theorem forestIds_single (t : Comment) :
    forestIds [t] = t.id :: forestIds t.replies := by
  rw [forestIds_cons, forestIds_nil, List.append_nil]

theorem forestIds_sub_of_mem : ∀ {l : List Comment} {t : Comment}, t ∈ l →
    ∀ {x}, x ∈ forestIds [t] → x ∈ forestIds l := by
  intro l
  induction l with
  | nil => intro t ht; cases ht
  | cons c tl ih =>
    intro t ht x hx
    rw [forestIds_split]
    rcases List.mem_cons.mp ht with rfl | ht'
    · exact List.mem_append_left _ hx
    · exact List.mem_append_right _ (ih ht' hx)

theorem mem_forestIds_split : ∀ {l : List Comment} {x : Int}, x ∈ forestIds l →
    ∃ t ∈ l, x ∈ forestIds [t] := by
  intro l
  induction l with
  | nil => intro x hx; rw [forestIds_nil] at hx; cases hx
  | cons c tl ih =>
    intro x hx
    rw [forestIds_split] at hx
    rcases List.mem_append.mp hx with h | h
    · exact ⟨c, List.mem_cons_self _ _, h⟩
    · obtain ⟨t, ht, hxt⟩ := ih h
      exact ⟨t, List.mem_cons_of_mem _ ht, hxt⟩

theorem nodesOfForest_nil : nodesOfForest [] = [] := by simp [nodesOfForest]

theorem nodesOfForest_cons (c : Comment) (l : List Comment) :
    nodesOfForest (c :: l) = c :: (nodesOfForest c.replies ++ nodesOfForest l) := by
  simp [nodesOfForest]

theorem nodesOfForest_append : ∀ (l₁ l₂ : List Comment),
    nodesOfForest (l₁ ++ l₂) = nodesOfForest l₁ ++ nodesOfForest l₂ := by
  intro l₁
  induction l₁ with
  | nil => intro l₂; rw [nodesOfForest_nil, List.nil_append, List.nil_append]
  | cons c t ih =>
    intro l₂
    rw [List.cons_append, nodesOfForest_cons, nodesOfForest_cons, ih, List.cons_append,
      List.append_assoc]

theorem nodesOfForest_split (t : Comment) (l : List Comment) :
    nodesOfForest (t :: l) = nodesOfForest [t] ++ nodesOfForest l := by
  rw [show t :: l = [t] ++ l from rfl, nodesOfForest_append]

theorem nodesOfForest_single (t : Comment) :
    nodesOfForest [t] = t :: nodesOfForest t.replies := by
  rw [nodesOfForest_cons, nodesOfForest_nil, List.append_nil]

theorem mem_nodesOfForest_split : ∀ {l : List Comment} {nd : Comment},
    nd ∈ nodesOfForest l → ∃ t ∈ l, nd ∈ nodesOfForest [t] := by
  intro l
  induction l with
  | nil => intro nd hx; rw [nodesOfForest_nil] at hx; cases hx
  | cons c tl ih =>
    intro nd hx
    rw [nodesOfForest_split] at hx
    rcases List.mem_append.mp hx with h | h
    · exact ⟨c, List.mem_cons_self _ _, h⟩
    · obtain ⟨t, ht, hxt⟩ := ih h
      exact ⟨t, List.mem_cons_of_mem _ ht, hxt⟩

end Gateway

namespace Gateway

theorem digedge_bound0 {cs : List Comment} {a b : Nat}
    (h : DigEdge cs (m0 cs) a b) : b < cs.length :=
  mem_m0_bound h

theorem rtg_bound0 {cs : List Comment} {a b : Nat} (ha : a < cs.length)
    (h : Relation.ReflTransGen (DigEdge cs (m0 cs)) a b) : b < cs.length := by
  induction h with
  | refl => exact ha
  | tail _ he _ => exact digedge_bound0 he

/-- A node has at most one parent in the built children map (among
in-range indices): the graph has in-degree at most one. -/
theorem edge_inj {cs : List Comment} (hnd : (cs.map Comment.id).Nodup)
    {a a' b : Nat} (h : DigEdge cs (m0 cs) a b) (h' : DigEdge cs (m0 cs) a' b)
    (ha : a < cs.length) (ha' : a' < cs.length) : a = a' := by
  have h1 := (mem_m0_replyId h).1
  have h2 := (mem_m0_replyId h').1
  exact key_inj hnd ha ha' (h1.symm.trans h2)

/-- No edge enters a root: a path ending at a `reply_id = 0` comment is
trivial. -/
theorem root_no_inedge {cs : List Comment} {s r : Nat}
    (hr : (cs.getD r defaultComment).replyId = 0)
    (h : Relation.ReflTransGen (DigEdge cs (m0 cs)) s r) : s = r := by
  rcases Relation.ReflTransGen.cases_tail h with heq | ⟨e, _, her⟩
  · exact heq.symm
  · exact absurd hr (by rw [(mem_m0_replyId her).1]; exact (mem_m0_replyId her).2)

/-- Where the intended subtree is defined, the children graph is acyclic. -/
theorem spec_no_cycle {cs : List Comment} : ∀ (g p : Nat) {nd : Comment},
    specTree cs (m0 cs) g p = some nd →
    ¬ Relation.TransGen (DigEdge cs (m0 cs)) p p := by
  intro g
  induction g with
  | zero => intro p nd h; cases h
  | succ g ih =>
    intro p nd h hTG
    obtain ⟨c, hedge, hrtg⟩ := Relation.TransGen.head'_iff.mp hTG
    unfold specTree at h
    cases hml : List.mapM (fun v => specTree cs (m0 cs) g v) (m0 cs (key cs p)) with
    | none => rw [hml] at h; cases h
    | some rs =>
      have hf := (mapM_some_iff_forall₂ _ _ _).mp hml
      obtain ⟨r, _, hr⟩ := forall₂_mem_left hf hedge
      exact ih c hr (Relation.TransGen.tail' hrtg hedge)

/-- Since in-degree is at most one, two paths into the same node are
comparable. -/
theorem rtg_comparable {cs : List Comment} (hnd : (cs.map Comment.id).Nodup)
    {a b c : Nat} (hb : b < cs.length)
    (h1 : Relation.ReflTransGen (DigEdge cs (m0 cs)) a c)
    (h2 : Relation.ReflTransGen (DigEdge cs (m0 cs)) b c) :
    a < cs.length →
    Relation.ReflTransGen (DigEdge cs (m0 cs)) a b ∨
      Relation.ReflTransGen (DigEdge cs (m0 cs)) b a := by
  induction h1 using Relation.ReflTransGen.head_induction_on with
  | refl => intro _; exact Or.inr h2
  | head hedge hrtg ih =>
    intro ha
    rcases ih (digedge_bound0 hedge) with h | h
    · exact Or.inl (Relation.ReflTransGen.head hedge h)
    · rcases Relation.ReflTransGen.cases_tail h with heq | ⟨e, hbe, hea⟩
      · exact Or.inl (Relation.ReflTransGen.single (heq ▸ hedge))
      · have he : e < cs.length := rtg_bound0 hb hbe
        rw [edge_inj hnd hea hedge he ha] at hbe
        exact Or.inr hbe

/-- Lift a list of `Good` certificates to a common fuel. -/
theorem good_fuel_list {cs : List Comment} {m : Int → List Nat} :
    ∀ {l : List Nat} {ts : List Comment}, List.Forall₂ (Good cs m) l ts →
      ∃ g, List.Forall₂ (fun v r => specTree cs m g v = some r) l ts := by
  intro l ts h
  induction h with
  | nil => exact ⟨0, List.Forall₂.nil⟩
  | cons hvr htail ihtail =>
    obtain ⟨g1, hg1⟩ := hvr
    obtain ⟨g2, hg2⟩ := ihtail
    refine ⟨max g1 g2, List.Forall₂.cons (specTree_le cs m (Nat.le_max_left g1 g2) hg1) ?_⟩
    exact hg2.imp (fun {v r} hvc => specTree_le cs m (Nat.le_max_right g1 g2) hvc)

theorem good_id {cs : List Comment} {m : Int → List Nat} {q : Nat} {t : Comment}
    (h : Good cs m q t) : t.id = key cs q := by
  obtain ⟨rs, _, rfl⟩ := (Good_iff cs m q t).mp h
  rfl

theorem good_replies {cs : List Comment} (hflat : FlatD cs) {q : Nat} {t : Comment}
    (h : Good cs (m0 cs) q t) :
    ∃ rs, t.replies = rs ∧ List.Forall₂ (Good cs (m0 cs)) (m0 cs (key cs q)) rs := by
  obtain ⟨rs, hall, rfl⟩ := (Good_iff cs (m0 cs) q t).mp h
  refine ⟨rs, ?_, hall⟩
  show (cs.getD q defaultComment).replies ++ rs = rs
  rw [hflat q, List.nil_append]

end Gateway

namespace Gateway

/-- Certificates for the forest of intended subtrees over a list of start
indices: every id in the forest is the id of an in-range index reachable
from a start, every node is some index's intended subtree, and — when the
starts are distinct and pairwise unreachable — the ids are pairwise
distinct. -/
theorem spec_forest_cert {cs : List Comment} (hnd : (cs.map Comment.id).Nodup)
    (hflat : FlatD cs) : ∀ (g : Nat) (qs : List Nat) (ts : List Comment),
    List.Forall₂ (fun q t => specTree cs (m0 cs) g q = some t) qs ts →
    (∀ q ∈ qs, q < cs.length) →
    ((∀ x ∈ forestIds ts, ∃ u, u < cs.length ∧ x = key cs u ∧
        ∃ q ∈ qs, Relation.ReflTransGen (DigEdge cs (m0 cs)) q u) ∧
      (∀ nd ∈ nodesOfForest ts, ∃ u, u < cs.length ∧ Good cs (m0 cs) u nd) ∧
      ((∀ q1 ∈ qs, ∀ q2 ∈ qs, q1 ≠ q2 →
          ¬ Relation.ReflTransGen (DigEdge cs (m0 cs)) q1 q2) → qs.Nodup →
        (forestIds ts).Nodup)) := by
  intro g
  induction g with
  | zero =>
    intro qs ts hF
    cases hF with
    | nil =>
      intro _
      refine ⟨?_, ?_, ?_⟩
      · intro x hx; rw [forestIds_nil] at hx; cases hx
      · intro nd hnd'; rw [nodesOfForest_nil] at hnd'; cases hnd'
      · intro _ _; rw [forestIds_nil]; exact List.nodup_nil
    | cons hq _ => cases hq
  | succ g ihg =>
    intro qs ts hF
    induction hF with
    | nil =>
      intro _
      refine ⟨?_, ?_, ?_⟩
      · intro x hx; rw [forestIds_nil] at hx; cases hx
      · intro nd hnd'; rw [nodesOfForest_nil] at hnd'; cases hnd'
      · intro _ _; rw [forestIds_nil]; exact List.nodup_nil
    | @cons q t qs' ts' hq htail ih =>
      intro hb
      have hqn : q < cs.length := hb q (List.mem_cons_self _ _)
      have hbt : ∀ q' ∈ qs', q' < cs.length := fun q' hq' => hb q' (List.mem_cons_of_mem _ hq')
      obtain ⟨mTail, ndTail, nodupTail⟩ := ih hbt
      have hq2 := hq
      unfold specTree at hq2
      cases hml : List.mapM (fun v => specTree cs (m0 cs) g v) (m0 cs (key cs q)) with
      | none => rw [hml] at hq2; cases hq2
      | some rs =>
        rw [hml] at hq2
        have ht : t = appendReplies (cs.getD q defaultComment) rs :=
          (Option.some.inj hq2).symm
        have hfc : List.Forall₂ (fun v r => specTree cs (m0 cs) g v = some r)
            (m0 cs (key cs q)) rs := (mapM_some_iff_forall₂ _ _ _).mp hml
        obtain ⟨mCh, ndCh, nodupCh⟩ := ihg (m0 cs (key cs q)) rs hfc
          (fun v hv => mem_m0_bound hv)
        have htid : t.id = key cs q := by rw [ht]; rfl
        have htrep : t.replies = rs := by
          rw [ht]
          show (cs.getD q defaultComment).replies ++ rs = rs
          rw [hflat q, List.nil_append]
        have hsplitF : forestIds (t :: ts') =
            (key cs q :: forestIds rs) ++ forestIds ts' := by
          rw [forestIds_split, forestIds_single, htid, htrep]
        refine ⟨?_, ?_, ?_⟩
        · intro x hx
          rw [hsplitF, List.cons_append, List.mem_cons] at hx
          rcases hx with rfl | hx
          · exact ⟨q, hqn, rfl, q, List.mem_cons_self _ _, Relation.ReflTransGen.refl⟩
          · rcases List.mem_append.mp hx with h | h
            · obtain ⟨u, hu, hxu, c, hc, hrtg⟩ := mCh x h
              exact ⟨u, hu, hxu, q, List.mem_cons_self _ _,
                Relation.ReflTransGen.head hc hrtg⟩
            · obtain ⟨u, hu, hxu, q2, hq2m, hrtg⟩ := mTail x h
              exact ⟨u, hu, hxu, q2, List.mem_cons_of_mem _ hq2m, hrtg⟩
        · intro nd hnd'
          rw [nodesOfForest_split, nodesOfForest_single, htrep] at hnd'
          rcases List.mem_append.mp hnd' with h | h
          · rcases List.mem_cons.mp h with rfl | h'
            · exact ⟨q, hqn, g + 1, hq⟩
            · exact ndCh nd h'
          · exact ndTail nd h
        · intro hinc hnodup
          rw [hsplitF]
          have hincCh : ∀ c1 ∈ m0 cs (key cs q), ∀ c2 ∈ m0 cs (key cs q), c1 ≠ c2 →
              ¬ Relation.ReflTransGen (DigEdge cs (m0 cs)) c1 c2 := by
            intro c1 hc1 c2 hc2 hne hrtg
            rcases Relation.ReflTransGen.cases_tail hrtg with heq | ⟨e, h1e, he2⟩
            · exact hne heq.symm
            · have he : e < cs.length := rtg_bound0 (mem_m0_bound hc1) h1e
              have heq : e = q := edge_inj hnd he2 hc2 he hqn
              subst heq
              obtain ⟨r1, _, hr1⟩ := forall₂_mem_left hfc hc1
              exact spec_no_cycle g c1 hr1 (Relation.TransGen.tail' h1e hc1)
          have hnodupCh := nodupCh hincCh (m0_nodup cs (key cs q))
          have hnodupT := nodupTail
            (fun q1 h1 q2 h2 => hinc q1 (List.mem_cons_of_mem _ h1) q2
              (List.mem_cons_of_mem _ h2))
            (List.nodup_cons.mp hnodup).2
          have hqnotin : q ∉ qs' := (List.nodup_cons.mp hnodup).1
          have hk_notin_ch : key cs q ∉ forestIds rs := by
            intro hx
            obtain ⟨u, hu, hxu, c, hc, hrtg⟩ := mCh _ hx
            have hq_eq : q = u := key_inj hnd hqn hu hxu
            rw [← hq_eq] at hrtg
            exact spec_no_cycle (g + 1) q hq (Relation.TransGen.head' hc hrtg)
          have hk_notin_t : key cs q ∉ forestIds ts' := by
            intro hx
            obtain ⟨u, hu, hxu, q2, hq2m, hrtg⟩ := mTail _ hx
            have hq_eq : q = u := key_inj hnd hqn hu hxu
            rw [← hq_eq] at hrtg
            by_cases hqq : q2 = q
            · exact hqnotin (hqq ▸ hq2m)
            · exact hinc q2 (List.mem_cons_of_mem _ hq2m) q (List.mem_cons_self _ _)
                hqq hrtg
          have hdisj : ∀ x ∈ forestIds rs, x ∉ forestIds ts' := by
            intro x hx1 hx2
            obtain ⟨u1, hu1, hxu1, c, hc, hrtg1⟩ := mCh x hx1
            obtain ⟨u2, hu2, hxu2, q2, hq2m, hrtg2⟩ := mTail x hx2
            have hueq : u1 = u2 := key_inj hnd hu1 hu2 (hxu1.symm.trans hxu2)
            rw [← hueq] at hrtg2
            have hrtgq : Relation.ReflTransGen (DigEdge cs (m0 cs)) q u1 :=
              Relation.ReflTransGen.head hc hrtg1
            have hq2n : q2 < cs.length := hbt q2 hq2m
            have hq2ne : q ≠ q2 := fun h => hqnotin (h ▸ hq2m)
            rcases rtg_comparable hnd hq2n hrtgq hrtg2 hqn with h | h
            · exact hinc q (List.mem_cons_self _ _) q2 (List.mem_cons_of_mem _ hq2m)
                hq2ne h
            · exact hinc q2 (List.mem_cons_of_mem _ hq2m) q (List.mem_cons_self _ _)
                (Ne.symm hq2ne) h
          rw [List.cons_append]
          refine List.nodup_cons.mpr ⟨?_, ?_⟩
          · intro hx
            rcases List.mem_append.mp hx with h | h
            · exact hk_notin_ch h
            · exact hk_notin_t h
          · refine List.Nodup.append hnodupCh hnodupT ?_
            intro x hx1 hx2
            exact hdisj x hx1 hx2

end Gateway

namespace Gateway

/-- At the final boundary every root holds its intended subtree. -/
theorem final_roots_good {cs A' : List Comment}
    (hinv : MidInv cs cs.length A' []) {x : Nat} (hx : x < cs.length)
    (hroot : (cs.getD x defaultComment).replyId = 0) :
    Good cs (m0 cs) x (A'.getD x defaultComment) := by
  by_cases hm0 : m0 cs (key cs x) = []
  · have hU := hinv.2.1 x hm0
    rw [show A'.getD x defaultComment = cs.getD x defaultComment from hU, Good_iff]
    exact ⟨[], by rw [hm0]; exact List.Forall₂.nil, (appendReplies_nil _).symm⟩
  · have hnU := hinv.2.2.1 x hx hm0
    by_contra hG
    rcases hinv.2.2.2.2 x hnU hG with hpf | hmem
    · exact hpf.1 hroot
    · cases hmem

theorem childFrom_map_key (cs : List Comment) (k : Int) :
    ∀ (l : List Comment) (i : Nat),
      (∀ x, x < l.length → cs.getD (i + x) defaultComment = l.getD x defaultComment) →
      (childFrom k l i).map (key cs) =
        (l.filter (fun c => c.replyId == k)).map Comment.id := by
  intro l
  induction l with
  | nil => intro i _; rfl
  | cons c t ih =>
    intro i hsuf
    have hc0 : cs.getD i defaultComment = c := by
      have h := hsuf 0 (by simp)
      simpa using h
    have hsuf' : ∀ x, x < t.length →
        cs.getD (i + 1 + x) defaultComment = t.getD x defaultComment := by
      intro x hx
      have h := hsuf (x + 1) (by simp; omega)
      rw [show i + (x + 1) = i + 1 + x by omega] at h
      simpa [List.getD_cons_succ] using h
    show (if c.replyId = k then i :: childFrom k t (i + 1)
        else childFrom k t (i + 1)).map (key cs) = _
    by_cases h : c.replyId = k
    · rw [if_pos h, List.filter_cons_of_pos (by simp [h]), List.map_cons,
        List.map_cons, ih (i + 1) hsuf']
      show key cs i :: _ = _
      rw [show key cs i = c.id by rw [key, hc0]]
    · rw [if_neg h, List.filter_cons_of_neg (by simp [h]), ih (i + 1) hsuf']

theorem m0_map_key (cs : List Comment) (k : Int) (hk : k ≠ 0) :
    (m0 cs k).map (key cs) =
      (cs.filter (fun c => c.replyId == k)).map Comment.id := by
  rw [m0_eq cs k hk]
  exact childFrom_map_key cs k cs 0 (fun x _ => by rw [Nat.zero_add])

theorem forall₂_map_self {R : Nat → Comment → Prop} (f : Nat → Comment) :
    ∀ {qs : List Nat}, (∀ q ∈ qs, R q (f q)) → List.Forall₂ R qs (qs.map f) := by
  intro qs
  induction qs with
  | nil => intro _; exact List.Forall₂.nil
  | cons a t ih =>
    intro h
    exact List.Forall₂.cons (h a (List.mem_cons_self _ _))
      (ih fun q hq => h q (List.mem_cons_of_mem _ hq))

/-- A filter is the map of the element-at function over the filtered index
range. -/
theorem filter_eq_map_range (P : Comment → Bool) :
    ∀ (l : List Comment),
      l.filter P = ((List.range l.length).filter
        (fun x => P (l.getD x defaultComment))).map
          (fun x => l.getD x defaultComment) := by
  intro l
  induction l with
  | nil => rfl
  | cons c t ih =>
    have hps : ((fun x => P ((c :: t).getD x defaultComment)) ∘ Nat.succ)
        = (fun x => P (t.getD x defaultComment)) := by
      funext x
      simp [Function.comp, Nat.succ_eq_add_one, List.getD_cons_succ]
    have hgs : ((fun x => (c :: t).getD x defaultComment) ∘ Nat.succ)
        = (fun x => t.getD x defaultComment) := by
      funext x
      simp [Function.comp, Nat.succ_eq_add_one, List.getD_cons_succ]
    cases hc : P c with
    | false =>
      rw [List.filter_cons_of_neg (by simp [hc]), List.length_cons,
        List.range_succ_eq_map,
        List.filter_cons_of_neg (by simp [List.getD_cons_zero, hc]),
        List.filter_map, hps, List.map_map, hgs]
      exact ih
    | true =>
      rw [List.filter_cons_of_pos (by simp [hc]), List.length_cons,
        List.range_succ_eq_map,
        List.filter_cons_of_pos (by simp [List.getD_cons_zero, hc]),
        List.map_cons, List.filter_map, hps, List.map_map, hgs]
      rw [show (c :: t).getD 0 defaultComment = c from rfl, ← ih]

end Gateway

namespace Gateway

theorem stripReplies_eq_self {c : Comment} (h : c.replies = []) : stripReplies c = c := by
  unfold stripReplies
  cases c
  simp_all

theorem forall₂_id_map {cs : List Comment} :
    ∀ {l : List Nat} {rs : List Comment},
      List.Forall₂ (fun v r => r.id = key cs v) l rs →
      rs.map Comment.id = l.map (key cs) := by
  intro l rs h
  induction h with
  | nil => rfl
  | cons hvr _ ih => rw [List.map_cons, List.map_cons, hvr, ih]

/-- The children of an intended subtree are exactly (the subtrees of) the
mapped children of its index, so their ids are the mapped children's ids
in map order. -/
theorem good_children_ids {cs : List Comment} (hflat : FlatD cs) {q : Nat}
    {t : Comment} (h : Good cs (m0 cs) q t) :
    t.replies.map Comment.id = (m0 cs (key cs q)).map (key cs) := by
  obtain ⟨rs, hrep, hall⟩ := good_replies hflat h
  rw [hrep]
  exact forall₂_id_map (hall.imp fun {v r} hvr => good_id hvr)

/-- Completeness of the intended subtree: the id of every index reachable
from the root occurs in it. -/
theorem good_reach_mem {cs : List Comment} (hflat : FlatD cs) :
    ∀ {r q : Nat}, Relation.ReflTransGen (DigEdge cs (m0 cs)) r q →
      ∀ {t : Comment}, Good cs (m0 cs) r t → key cs q ∈ forestIds [t] := by
  intro r q h
  induction h using Relation.ReflTransGen.head_induction_on with
  | refl =>
    intro t ht
    rw [forestIds_single, good_id ht]
    exact List.mem_cons_self _ _
  | head hedge hpath ih =>
    intro t ht
    obtain ⟨rs, hrep, hall⟩ := good_replies hflat ht
    obtain ⟨tc, htc, hgc⟩ := forall₂_mem_left hall hedge
    have hmem := ih hgc
    rw [forestIds_single]
    refine List.mem_cons_of_mem _ ?_
    rw [hrep]
    exact forestIds_sub_of_mem htc hmem

end Gateway

namespace Gateway

/-- C1 (amended with the missing uniqueness hypothesis on ids): for a flat
comment list with pairwise distinct ids, a terminating `ToTree` run
returns a forest whose roots are exactly the input comments with
`reply_id = 0` in input order, in which no id occurs twice, whose node ids
are exactly the ids of input comments reachable from a root through the
children map (orphans are dropped), and in which the children of any node
are exactly the input comments whose `reply_id` is the node's id, in input
order (stability). -/
theorem C1_forest {cs : List Comment} {f : Nat} {out : List Comment}
    (hnd : (cs.map Comment.id).Nodup) (hflat : ∀ c ∈ cs, c.replies = [])
    (h : ToTree f cs = some out) :
    out.map stripReplies = cs.filter (fun c => c.replyId == 0) ∧
    (forestIds out).Nodup ∧
    (∀ x, x ∈ forestIds out ↔ ∃ q, q < cs.length ∧ x = key cs q ∧
      ∃ r, r < cs.length ∧ (cs.getD r defaultComment).replyId = 0 ∧
        Relation.ReflTransGen (DigEdge cs (m0 cs)) r q) ∧
    (∀ nd ∈ nodesOfForest out, nd.id ≠ 0 →
      nd.replies.map Comment.id =
        (cs.filter (fun c => c.replyId == nd.id)).map Comment.id) := by
  have hflatD : FlatD cs := FlatD_of_mem hflat
  obtain ⟨A', hinv, hout⟩ := ToTree_some_inv hnd hflatD h
  have hExt : Ext cs A' := hinv.1
  have hlen : A'.length = cs.length := hExt.1
  obtain ⟨ridx, hridx⟩ : ∃ ridx, ridx = (List.range cs.length).filter
      (fun x => (cs.getD x defaultComment).replyId == 0) := ⟨_, rfl⟩
  have hmemr : ∀ q, q ∈ ridx ↔
      (q < cs.length ∧ (cs.getD q defaultComment).replyId = 0) := by
    intro q
    rw [hridx, List.mem_filter, List.mem_range]
    simp
  have hfilterA : A'.filter (fun c => c.replyId == 0) =
      ridx.map (fun x => A'.getD x defaultComment) := by
    rw [filter_eq_map_range, hlen]
    congr 1
    rw [hridx]
    refine List.filter_congr ?_
    intro x _
    rw [Ext_replyId hExt x]
  have houtmap : out = ridx.map (fun x => A'.getD x defaultComment) := by
    rw [hout, hfilterA]
  have hrootlt : ∀ q ∈ ridx, q < cs.length := fun q hq => ((hmemr q).mp hq).1
  have hroot0 : ∀ q ∈ ridx, (cs.getD q defaultComment).replyId = 0 :=
    fun q hq => ((hmemr q).mp hq).2
  have hgoodr : ∀ q ∈ ridx, Good cs (m0 cs) q (A'.getD q defaultComment) :=
    fun q hq => final_roots_good hinv (hrootlt q hq) (hroot0 q hq)
  have hF2 : List.Forall₂ (Good cs (m0 cs)) ridx out := by
    rw [houtmap]
    exact forall₂_map_self _ hgoodr
  obtain ⟨G, hFG⟩ := good_fuel_list hF2
  have hinc : ∀ q1 ∈ ridx, ∀ q2 ∈ ridx, q1 ≠ q2 →
      ¬ Relation.ReflTransGen (DigEdge cs (m0 cs)) q1 q2 := by
    intro q1 h1 q2 h2 hne hrtg
    exact hne (root_no_inedge (hroot0 q2 h2) hrtg)
  have hndr : ridx.Nodup := by
    rw [hridx]
    exact (List.nodup_range _).filter _
  obtain ⟨certMem, certNodes, certNodup⟩ :=
    spec_forest_cert hnd hflatD G ridx out hFG hrootlt
  refine ⟨?_, certNodup hinc hndr, ?_, ?_⟩
  · have hcsf : cs.filter (fun c => c.replyId == 0) =
        ridx.map (fun x => cs.getD x defaultComment) := by
      rw [filter_eq_map_range, ← hridx]
    rw [houtmap, List.map_map, hcsf]
    refine List.map_congr_left ?_
    intro x _
    show stripReplies (A'.getD x defaultComment) = cs.getD x defaultComment
    rw [Ext_strip hExt x]
    exact stripReplies_eq_self (hflatD x)
  · intro x
    constructor
    · intro hx
      obtain ⟨u, hu, hxu, q, hq, hrtg⟩ := certMem x hx
      exact ⟨u, hu, hxu, q, hrootlt q hq, hroot0 q hq, hrtg⟩
    · rintro ⟨q, hqn, rfl, r, hrn, hr0, hrtg⟩
      have hrmem : r ∈ ridx := (hmemr r).mpr ⟨hrn, hr0⟩
      have htr : A'.getD r defaultComment ∈ out := by
        rw [houtmap]
        exact List.mem_map_of_mem _ hrmem
      exact forestIds_sub_of_mem htr (good_reach_mem hflatD hrtg (hgoodr r hrmem))
  · intro nd hnd' hid0
    obtain ⟨u, hu, hgood⟩ := certNodes nd hnd'
    have hkey : nd.id = key cs u := good_id hgood
    rw [good_children_ids hflatD hgood, ← hkey, m0_map_key cs nd.id hid0]

end Gateway

namespace Gateway

/-- Input refuting the unqualified claim: flat, but ids are not unique
(two comments with id 5). -/
def dupIdInput : List Comment := [mkC 1 0, mkC 2 0, mkC 5 1, mkC 5 2, mkC 9 5]

/-- The forest `ToTree` returns on `dupIdInput`. -/
def dupIdOut : List Comment :=
  [⟨1, "", "", 0, 0, [⟨5, "", "", 0, 1, [⟨9, "", "", 0, 5, []⟩]⟩]⟩,
   ⟨2, "", "", 0, 0, [⟨5, "", "", 0, 2, [⟨9, "", "", 0, 5, []⟩]⟩]⟩]

/-- C1 counterexample: on a flat input with a duplicated id, `ToTree`
emits the comment with id 9 twice (and id 5 twice) across the forest,
refuting the claim's "every other element appears at most once" for
arbitrary flat lists. -/
theorem C1_counterexample :
    (∀ c ∈ dupIdInput, c.replies = []) ∧
    ToTree 20 dupIdInput = some dupIdOut ∧
    ¬ (forestIds dupIdOut).Nodup := by
  refine ⟨?_, rfl, ?_⟩
  · intro c hc
    fin_cases hc <;> rfl
  · have hids : forestIds dupIdOut = [1, 5, 9, 2, 5, 9] := by
      simp [dupIdOut, forestIds]
    rw [hids]
    decide

/-- Witness: the amended C1 theorem applied to the repository's own test
input (14 comments, unique ids, flat). -/
theorem C1_forest_witness :
    toTreeTestWant.map stripReplies =
        toTreeTestInput.filter (fun c => c.replyId == 0) ∧
    (forestIds toTreeTestWant).Nodup ∧
    (∀ x, x ∈ forestIds toTreeTestWant ↔ ∃ q, q < toTreeTestInput.length ∧
      x = key toTreeTestInput q ∧ ∃ r, r < toTreeTestInput.length ∧
      (toTreeTestInput.getD r defaultComment).replyId = 0 ∧
        Relation.ReflTransGen (DigEdge toTreeTestInput (m0 toTreeTestInput)) r q) ∧
    (∀ nd ∈ nodesOfForest toTreeTestWant, nd.id ≠ 0 →
      nd.replies.map Comment.id =
        (toTreeTestInput.filter (fun c => c.replyId == nd.id)).map Comment.id) :=
  C1_forest (by decide) (by intro c hc; fin_cases hc <;> rfl)
    (rfl : ToTree 20 toTreeTestInput = some toTreeTestWant)

end Gateway
